import Mathlib

/- Shallow embedding of the psamfinder duplicate-file finder
   (src/psamfinder/finder.py and src/psamfinder/cli.py) with proofs
   about its duplicate-detection engine.

   Modelling conventions.
   The filesystem and the external hashing/decoding libraries are the
   environment: every top-level operation takes the directory-walk results
   as input data, as (path, outcome) pairs in walk order.  A SHA-256 digest
   is an opaque string carried by a successful read (hash collisions are out
   of scope, as the spec accepts).  A perceptual fingerprint is a bit vector
   (List Bool); the imagehash subtraction operator is Hamming distance.
   Python floats are modelled by rationals, and round() by
   round-half-to-even, which agrees with Python on the values reachable
   here because they are exactly representable in binary.  The unbounded
   recursion of the union-find find() in finder.py is modelled with fuel n
   (the number of elements); the development proves that, under the forest
   invariant the algorithm maintains, a parent chain reaches its root in
   fewer than n steps, so the fuel never runs out and the model coincides
   with Python's unbounded recursion. -/

namespace PsamFinder

/- ### Perceptual fingerprints (finder.py lines 48-66, imagehash values) -/

/- A perceptual hash value: a fixed-length bit vector. -/
abbrev FP := List Bool

/- imagehash.__sub__: hashes[i] - hashes[j] counts the differing bits
   (finder.py line 82). -/
def hammingDist (a b : FP) : ℕ := (List.zipWith (fun x y => x != y) a b).count true

lemma hammingDist_comm : ∀ a b : FP, hammingDist a b = hammingDist b a := by
  intro a
  induction a with
  | nil => intro b; cases b <;> rfl
  | cons x xs ih =>
    intro b
    cases b with
    | nil => rfl
    | cons y ys =>
      simp only [hammingDist, List.zipWith] at *
      have hxy : (x != y) = (y != x) := by cases x <;> cases y <;> rfl
      simp only [List.count_cons, hxy, ih ys]

lemma hammingDist_self : ∀ a : FP, hammingDist a a = 0 := by
  intro a
  induction a with
  | nil => rfl
  | cons x xs ih =>
    simp only [hammingDist, List.zipWith, List.count_cons, bne_self_eq_false] at *
    simpa using ih

/- ### Insertion-ordered multimap, the accumulation pattern shared by
   the exact grouper (hash_dict, finder.py lines 111-119) and the fuzzy
   grouper (defaultdict groups, finder.py lines 87-91).  A Python dict
   preserves key insertion order; an association list does the same. -/

/- hash_dict[k].append(v), creating the bucket when the key is new
   (new keys go to the end, as in a Python dict). -/
def mmAdd {κ α : Type} [DecidableEq κ] : List (κ × List α) → κ → α → List (κ × List α)
  | [], k, a => [(k, [a])]
  | (k0, vs) :: rest, k, a =>
    if k0 = k then (k0, vs ++ [a]) :: rest else (k0, vs) :: mmAdd rest k a

/- Accumulate a whole (key, value) sequence into a multimap. -/
def mmFold {κ α : Type} [DecidableEq κ] (l : List (κ × α)) (acc : List (κ × List α)) :
    List (κ × List α) :=
  l.foldl (fun b e => mmAdd b e.1 e.2) acc

def mmOf {κ α : Type} [DecidableEq κ] (l : List (κ × α)) : List (κ × List α) := mmFold l []

/- First-match association lookup. -/
def mmGet {κ α : Type} [DecidableEq κ] : List (κ × List α) → κ → Option (List α)
  | [], _ => none
  | (k0, vs) :: rest, k => if k0 = k then some vs else mmGet rest k

def mmKeys {κ α : Type} (b : List (κ × List α)) : List κ := b.map Prod.fst

section MMLemmas

variable {κ α : Type} [DecidableEq κ]

lemma mmGet_mmAdd_same (b : List (κ × List α)) (k : κ) (a : α) :
    mmGet (mmAdd b k a) k = some ((mmGet b k).getD [] ++ [a]) := by
  induction b with
  | nil => simp [mmAdd, mmGet]
  | cons e rest ih =>
    obtain ⟨k0, vs⟩ := e
    by_cases h : k0 = k
    · subst h; simp [mmAdd, mmGet]
    · simp [mmAdd, mmGet, h, ih]

lemma mmGet_mmAdd_other (b : List (κ × List α)) (k k2 : κ) (a : α) (h : k ≠ k2) :
    mmGet (mmAdd b k a) k2 = mmGet b k2 := by
  induction b with
  | nil => simp [mmAdd, mmGet, h]
  | cons e rest ih =>
    obtain ⟨k0, vs⟩ := e
    by_cases h0 : k0 = k
    · subst h0; simp [mmAdd, mmGet, h]
    · simp [mmAdd, mmGet, h0, ih]

/- Merge of a previous lookup result with newly appended values. -/
def mmMerge (o : Option (List α)) (vs : List α) : Option (List α) :=
  match o, vs with
  | none, [] => none
  | none, vs => some vs
  | some us, vs => some (us ++ vs)

lemma mmGet_mmFold (l : List (κ × α)) :
    ∀ (acc : List (κ × List α)) (k : κ),
      mmGet (mmFold l acc) k
        = mmMerge (mmGet acc k) ((l.filter (fun e => decide (e.1 = k))).map Prod.snd) := by
  induction l with
  | nil =>
    intro acc k
    simp only [mmFold, List.foldl_nil, List.filter_nil, List.map_nil]
    cases h : mmGet acc k <;> simp [mmMerge, h]
  | cons e rest ih =>
    intro acc k
    obtain ⟨k0, v⟩ := e
    have hstep : mmFold ((k0, v) :: rest) acc = mmFold rest (mmAdd acc k0 v) := rfl
    rw [hstep, ih]
    by_cases h : k0 = k
    · subst h
      rw [mmGet_mmAdd_same]
      have hf : List.filter (fun e => decide (e.1 = k0)) ((k0, v) :: rest)
          = (k0, v) :: List.filter (fun e => decide (e.1 = k0)) rest := by simp
      rw [hf, List.map_cons]
      cases hacc : mmGet acc k0 with
      | none => simp [mmMerge]
      | some us => simp [mmMerge]
    · rw [mmGet_mmAdd_other _ _ _ _ h]
      have hf : List.filter (fun e => decide (e.1 = k)) ((k0, v) :: rest)
          = List.filter (fun e => decide (e.1 = k)) rest := by simp [h]
      rw [hf]

/- Characterization of the multimap built from scratch: the bucket of k is
   exactly the values entered under k, in order. -/
lemma mmGet_mmOf (l : List (κ × α)) (k : κ) :
    mmGet (mmOf l) k = mmMerge none ((l.filter (fun e => decide (e.1 = k))).map Prod.snd) := by
  rw [mmOf, mmGet_mmFold]
  rfl

lemma mmKeys_mmAdd (b : List (κ × List α)) (k : κ) (a : α) :
    mmKeys (mmAdd b k a) = if k ∈ mmKeys b then mmKeys b else mmKeys b ++ [k] := by
  induction b with
  | nil => simp [mmAdd, mmKeys]
  | cons e rest ih =>
    obtain ⟨k0, vs⟩ := e
    by_cases h : k0 = k
    · subst h; simp [mmAdd, mmKeys]
    · have h2 : ¬(k = k0) := fun hh => h hh.symm
      simp only [mmAdd, if_neg h, mmKeys, List.map_cons, List.mem_cons]
      simp only [mmKeys] at ih
      rw [ih]
      by_cases hm : k ∈ rest.map Prod.fst
      · simp [hm, h2]
      · simp [hm, h2]

lemma mmKeys_nodup_mmAdd (b : List (κ × List α)) (k : κ) (a : α)
    (h : (mmKeys b).Nodup) : (mmKeys (mmAdd b k a)).Nodup := by
  rw [mmKeys_mmAdd]
  by_cases hm : k ∈ mmKeys b
  · simpa [hm] using h
  · simp only [if_neg hm]
    exact List.Nodup.append h (List.nodup_singleton k) (by simpa using hm)

lemma mmKeys_nodup_mmFold (l : List (κ × α)) :
    ∀ acc : List (κ × List α), (mmKeys acc).Nodup → (mmKeys (mmFold l acc)).Nodup := by
  induction l with
  | nil => intro acc h; exact h
  | cons e rest ih =>
    intro acc h
    exact ih (mmAdd acc e.1 e.2) (mmKeys_nodup_mmAdd acc e.1 e.2 h)

lemma mmKeys_nodup_mmOf (l : List (κ × α)) : (mmKeys (mmOf l)).Nodup :=
  mmKeys_nodup_mmFold l [] (by simp [mmKeys])

/- Under distinct keys, association-list membership coincides with lookup. -/
lemma mm_mem_iff_get (b : List (κ × List α)) (hnd : (mmKeys b).Nodup) (k : κ) (vs : List α) :
    (k, vs) ∈ b ↔ mmGet b k = some vs := by
  induction b with
  | nil => simp [mmGet]
  | cons e rest ih =>
    obtain ⟨k0, us⟩ := e
    simp only [mmKeys, List.map_cons, List.nodup_cons] at hnd
    by_cases h : k0 = k
    · subst h
      have hg : mmGet ((k0, us) :: rest) k0 = some us := by simp [mmGet]
      rw [hg]
      constructor
      · intro hm
        rcases List.mem_cons.mp hm with he | hm2
        · rw [Prod.mk.injEq] at he
          exact congrArg some he.2.symm
        · exact absurd (List.mem_map_of_mem Prod.fst hm2) hnd.1
      · intro he
        simp only [Option.some.injEq] at he
        subst he
        exact List.mem_cons_self _ _
    · have hg : mmGet ((k0, us) :: rest) k = mmGet rest k := by simp [mmGet, h]
      rw [hg, ← ih hnd.2]
      simp only [List.mem_cons]
      constructor
      · rintro (he | hm)
        · rw [Prod.mk.injEq] at he
          exact absurd he.1.symm h
        · exact hm
      · exact fun hm => Or.inr hm

/- The two directions of bucket membership for mmOf. -/
lemma mmOf_mem_char (l : List (κ × α)) (k : κ) (vs : List α) :
    (k, vs) ∈ mmOf l ↔
      ((l.filter (fun e => decide (e.1 = k))).map Prod.snd = vs ∧ vs ≠ []) := by
  rw [mm_mem_iff_get _ (mmKeys_nodup_mmOf l), mmGet_mmOf]
  cases hf : (l.filter (fun e => decide (e.1 = k))).map Prod.snd with
  | nil =>
    simp only [mmMerge]
    constructor
    · intro hc; exact absurd hc (by simp)
    · rintro ⟨h1, h2⟩; exact absurd h1.symm h2
  | cons a as =>
    simp only [mmMerge, Option.some.injEq]
    constructor
    · intro he; exact ⟨he, by rw [← he]; simp⟩
    · rintro ⟨h1, _⟩; exact h1

lemma mmOf_mem_of_entry (l : List (κ × α)) (k : κ) (a : α) (h : (k, a) ∈ l) :
    ∃ vs, (k, vs) ∈ mmOf l ∧ a ∈ vs := by
  refine ⟨(l.filter (fun e => decide (e.1 = k))).map Prod.snd, ?_, ?_⟩
  · rw [mmOf_mem_char]
    refine ⟨rfl, ?_⟩
    have : a ∈ (l.filter (fun e => decide (e.1 = k))).map Prod.snd := by
      refine List.mem_map.mpr ⟨(k, a), ?_, rfl⟩
      exact List.mem_filter.mpr ⟨h, by simp⟩
    exact List.ne_nil_of_mem this
  · refine List.mem_map.mpr ⟨(k, a), ?_, rfl⟩
    exact List.mem_filter.mpr ⟨h, by simp⟩

lemma mmOf_val_mem (l : List (κ × α)) (k : κ) (vs : List α) (a : α)
    (hm : (k, vs) ∈ mmOf l) (ha : a ∈ vs) : (k, a) ∈ l := by
  rw [mmOf_mem_char] at hm
  rcases hm with ⟨hvs, _⟩
  rw [← hvs] at ha
  rcases List.mem_map.mp ha with ⟨e, he, hsnd⟩
  rcases List.mem_filter.mp he with ⟨hel, hkey⟩
  simp only [decide_eq_true_eq] at hkey
  have : e = (k, a) := by
    obtain ⟨e1, e2⟩ := e
    simp only at hkey hsnd
    rw [hkey, hsnd]
  rwa [this] at hel

/- Buckets of distinct entries of mmOf are disjoint, provided each value
   determines its key in the input sequence. -/
lemma mmOf_pairwise_disjoint (l : List (κ × α))
    (hdet : ∀ a k1 k2, (k1, a) ∈ l → (k2, a) ∈ l → k1 = k2) :
    (mmOf l).Pairwise (fun e1 e2 => ∀ a, a ∈ e1.2 → a ∉ e2.2) := by
  have hkeys : (mmOf l).Pairwise (fun e1 e2 => e1.1 ≠ e2.1) := by
    have h := mmKeys_nodup_mmOf l
    rw [mmKeys] at h
    exact List.pairwise_map.mp h
  refine hkeys.imp_of_mem ?_
  intro e1 e2 h1 h2 hne a ha1 ha2
  obtain ⟨k1, vs1⟩ := e1
  obtain ⟨k2, vs2⟩ := e2
  exact hne (hdet a k1 k2 (mmOf_val_mem l k1 vs1 a h1 ha1) (mmOf_val_mem l k2 vs2 a h2 ha2))

/- Buckets of mmOf have no duplicate members when the value sequence has none. -/
lemma mmOf_bucket_nodup (l : List (κ × α)) (hnd : (l.map Prod.snd).Nodup)
    (k : κ) (vs : List α) (hm : (k, vs) ∈ mmOf l) : vs.Nodup := by
  rw [mmOf_mem_char] at hm
  rcases hm with ⟨hvs, _⟩
  rw [← hvs]
  exact hnd.sublist ((List.filter_sublist l).map Prod.snd)

end MMLemmas

/- ### Exact mode: the Content Hasher and the Exact Duplicate Grouper
   (finder.py lines 8-18 and 110-122) -/

/- A SHA-256 hex digest (64 hex characters, opaque here). -/
abbrev Digest := String

/- Outcome of opening and reading one file, supplied by the environment.
   The kinds distinguish the exceptions compute_hash catches
   (PermissionError, FileNotFoundError) from every other OSError. -/
inductive FsError
  | permDenied
  | notFound
  | otherErr
deriving DecidableEq

instance {ε α : Type} [DecidableEq ε] [DecidableEq α] : DecidableEq (Except ε α) := fun a b =>
  match a, b with
  | .ok x, .ok y =>
    if h : x = y then isTrue (by rw [h]) else isFalse (fun hc => h (Except.ok.inj hc))
  | .ok _, .error _ => isFalse (fun hc => Except.noConfusion hc)
  | .error _, .ok _ => isFalse (fun hc => Except.noConfusion hc)
  | .error e, .error f =>
    if h : e = f then isTrue (by rw [h]) else isFalse (fun hc => h (Except.error.inj hc))

/- The except clause of compute_hash (finder.py line 16) catches exactly
   PermissionError and FileNotFoundError. -/
def isCaught : FsError → Bool
  | .permDenied => true
  | .notFound => true
  | .otherErr => false

/- compute_hash (finder.py lines 8-18): on a successful read the digest of
   the content comes back; a caught error yields None (the file is skipped,
   the error is printed to stderr); any other exception propagates. -/
def compute_hash : Except FsError Digest → Except FsError (Option Digest)
  | .ok d => .ok (some d)
  | .error e => if isCaught e then .ok none else .error e

/- The walk loop of exact-mode find_duplicates (finder.py lines 111-119):
   accumulate hash_dict, skipping files whose hash failed; an uncaught
   exception aborts the walk. -/
def exactLoop : List (String × Except FsError Digest) → List (Digest × List String) →
    Except FsError (List (Digest × List String))
  | [], acc => .ok acc
  | (p, r) :: rest, acc =>
    match compute_hash r with
    | .error e => .error e
    | .ok none => exactLoop rest acc
    | .ok (some d) => exactLoop rest (mmAdd acc d p)

/- Exact-mode find_duplicates (finder.py lines 110-122): keep the buckets
   with at least two paths, in dict order. -/
def find_duplicates_exact (files : List (String × Except FsError Digest)) :
    Except FsError (List (List String)) :=
  (exactLoop files []).map (fun dict => (dict.map Prod.snd).filter (fun g => 1 < g.length))

/- The stderr messages of compute_hash during the walk: (path, cause) for
   each caught failure, in walk order, cut short by an uncaught exception
   (finder.py line 17). -/
def exactStderr : List (String × Except FsError Digest) → List (String × FsError)
  | [] => []
  | (_, .ok _) :: rest => exactStderr rest
  | (p, .error e) :: rest => if isCaught e then (p, e) :: exactStderr rest else []

/- The sequence of files whose content the exact walk opens, in order
   (compute_hash opens each walked file once; an uncaught exception stops
   the walk). -/
def exactReadTrace : List (String × Except FsError Digest) → List String
  | [] => []
  | (p, .ok _) :: rest => p :: exactReadTrace rest
  | (p, .error e) :: rest => if isCaught e then p :: exactReadTrace rest else [p]

/- The (digest, path) pairs that enter hash_dict, in walk order. -/
def okEntries (files : List (String × Except FsError Digest)) : List (Digest × String) :=
  files.filterMap (fun e =>
    match e.2 with
    | .ok d => some (d, e.1)
    | .error _ => none)

lemma okEntries_mem (files : List (String × Except FsError Digest)) (d : Digest) (p : String) :
    (d, p) ∈ okEntries files ↔ (p, Except.ok d) ∈ files := by
  rw [okEntries, List.mem_filterMap]
  constructor
  · rintro ⟨⟨q, r⟩, hmem, hf⟩
    cases r with
    | ok d2 =>
      simp only [Option.some.injEq, Prod.mk.injEq] at hf
      rw [← hf.1, ← hf.2]
      exact hmem
    | error e => simp at hf
  · intro h
    exact ⟨(p, Except.ok d), h, rfl⟩

/- When every failure in the walk is a caught one, the walk completes and
   hash_dict is the multimap of the successful entries. -/
lemma exactLoop_ok (files : List (String × Except FsError Digest))
    (hc : ∀ p e, (p, Except.error e) ∈ files → isCaught e = true) :
    ∀ acc, exactLoop files acc = .ok (mmFold (okEntries files) acc) := by
  induction files with
  | nil => intro acc; rfl
  | cons f rest ih =>
    intro acc
    obtain ⟨p, r⟩ := f
    have hrest : ∀ p e, (p, Except.error e) ∈ rest → isCaught e = true := by
      intro q e hq
      exact hc q e (List.mem_cons_of_mem _ hq)
    cases r with
    | ok d =>
      have : exactLoop ((p, Except.ok d) :: rest) acc = exactLoop rest (mmAdd acc d p) := rfl
      rw [this, ih hrest]
      rfl
    | error e =>
      have he : isCaught e = true := hc p e (List.mem_cons_self _ _)
      have : exactLoop ((p, Except.error e) :: rest) acc = exactLoop rest acc := by
        simp [exactLoop, compute_hash, he]
      rw [this, ih hrest]
      rfl

/- Conversely, a completed walk forces the dict to be that multimap, and
   every entry before an uncaught error to be processed: if the walk
   returned successfully there was no uncaught error. -/
lemma exactLoop_ok_inv (files : List (String × Except FsError Digest)) :
    ∀ acc dict, exactLoop files acc = .ok dict →
      dict = mmFold (okEntries files) acc ∧
      ∀ p e, (p, Except.error e) ∈ files → isCaught e = true := by
  induction files with
  | nil =>
    intro acc dict h
    simp only [exactLoop] at h
    exact ⟨by cases h; rfl, by simp⟩
  | cons f rest ih =>
    intro acc dict h
    obtain ⟨p, r⟩ := f
    cases r with
    | ok d =>
      have hs : exactLoop ((p, Except.ok d) :: rest) acc = exactLoop rest (mmAdd acc d p) := rfl
      rw [hs] at h
      rcases ih _ _ h with ⟨h1, h2⟩
      refine ⟨h1, ?_⟩
      intro q e hq
      rcases List.mem_cons.mp hq with he | hm
      · exact absurd he (by simp)
      · exact h2 q e hm
    | error e =>
      by_cases hce : isCaught e = true
      · have hs : exactLoop ((p, Except.error e) :: rest) acc = exactLoop rest acc := by
          simp [exactLoop, compute_hash, hce]
        rw [hs] at h
        rcases ih _ _ h with ⟨h1, h2⟩
        refine ⟨by rw [h1]; rfl, ?_⟩
        intro q e2 hq
        rcases List.mem_cons.mp hq with he2 | hm
        · rw [Prod.mk.injEq, Except.error.injEq] at he2
          rw [he2.2]
          exact hce
        · exact h2 q e2 hm
      · exfalso
        have hs : exactLoop ((p, Except.error e) :: rest) acc = .error e := by
          simp [exactLoop, compute_hash, hce]
        rw [hs] at h
        exact Except.noConfusion h

/- ### Union-find over indices 0..n-1 (finder.py lines 68-84) -/

section UnionFind

variable {n : ℕ}

/- find with path compression (finder.py lines 70-73).  The fuel argument
   stands in for Python's unbounded recursion; findUF_spec below shows that
   fuel n always suffices for the parent maps the algorithm builds, so the
   model coincides with the Python function. -/
def findUF : ℕ → (Fin n → Fin n) → Fin n → (Fin n → Fin n) × Fin n
  | 0, p, i => (p, i)
  | fuel + 1, p, i =>
    if p i = i then (p, i)
    else
      let r := findUF fuel p (p i)
      (Function.update r.1 i r.2, r.2)

/- union (finder.py lines 74-78): parent[find(i)] = find(j) when the two
   roots differ. -/
def unionUF (fuel : ℕ) (p : Fin n → Fin n) (i j : Fin n) : Fin n → Fin n :=
  let a := findUF fuel p i
  let b := findUF fuel a.1 j
  if a.2 = b.2 then b.1 else Function.update b.1 a.2 b.2

/- RootedK p k x r: following parent pointers from x reaches the root r in
   exactly k steps (intermediate nodes are non-roots). -/
inductive RootedK (p : Fin n → Fin n) : ℕ → Fin n → Fin n → Prop
  | root (x : Fin n) : p x = x → RootedK p 0 x x
  | step (k : ℕ) (x r : Fin n) : p x ≠ x → RootedK p k (p x) r → RootedK p (k + 1) x r

def RootedAt (p : Fin n → Fin n) (x r : Fin n) : Prop := ∃ k, RootedK p k x r

/- The forest invariant: every node reaches a root. -/
def TerminatesUF (p : Fin n → Fin n) : Prop := ∀ x, ∃ r, RootedAt p x r

lemma rootedK_unique {p : Fin n → Fin n} {k : ℕ} {x r : Fin n} (h : RootedK p k x r) :
    ∀ k2 r2, RootedK p k2 x r2 → k = k2 ∧ r = r2 := by
  induction h with
  | root x hx =>
    intro k2 r2 h2
    cases h2 with
    | root => exact ⟨rfl, rfl⟩
    | step _ _ _ hne _ => exact absurd hx hne
  | step k x r hne hk ih =>
    intro k2 r2 h2
    cases h2 with
    | root _ hx => exact absurd hx hne
    | step kb _ _ hne2 hkb =>
      obtain ⟨h1, h2⟩ := ih _ _ hkb
      exact ⟨by rw [h1], h2⟩

lemma rootedAt_unique {p : Fin n → Fin n} {x r r2 : Fin n}
    (h : RootedAt p x r) (h2 : RootedAt p x r2) : r = r2 := by
  obtain ⟨k, hk⟩ := h
  obtain ⟨k2, hk2⟩ := h2
  exact (rootedK_unique hk k2 r2 hk2).2

lemma rootedAt_fix {p : Fin n → Fin n} {x r : Fin n} (h : RootedAt p x r) : p r = r := by
  obtain ⟨k, hk⟩ := h
  induction hk with
  | root _ hx => exact hx
  | step _ _ _ _ _ ih => exact ih

lemma rootedAt_of_fix {p : Fin n → Fin n} {x r : Fin n} (hx : p x = x)
    (h : RootedAt p x r) : r = x := by
  obtain ⟨k, hk⟩ := h
  cases hk with
  | root => rfl
  | step _ _ _ hne _ => exact absurd hx hne

lemma rootedAt_root {p : Fin n → Fin n} {x : Fin n} (hx : p x = x) : RootedAt p x x :=
  ⟨0, RootedK.root x hx⟩

lemma rootedAt_stepOf {p : Fin n → Fin n} {x r : Fin n} (hne : p x ≠ x)
    (h : RootedAt p (p x) r) : RootedAt p x r := by
  obtain ⟨k, hk⟩ := h
  exact ⟨k + 1, RootedK.step k x r hne hk⟩

lemma rootedK_iterate {p : Fin n → Fin n} :
    ∀ (m k : ℕ) (x r : Fin n), RootedK p k x r → m ≤ k → RootedK p (k - m) (p^[m] x) r := by
  intro m
  induction m with
  | zero =>
    intro k x r h _
    simpa using h
  | succ m ih =>
    intro k x r h hm
    cases h with
    | root _ hx => exact absurd hm (by omega)
    | step k2 _ _ hne hk2 =>
      rw [Function.iterate_succ_apply]
      have h2 := ih k2 (p x) r hk2 (by omega)
      simpa [Nat.succ_sub_succ] using h2

/- The nodes along a root chain are pairwise distinct, so a chain is
   shorter than n: fuel n suffices for findUF. -/
lemma rootedK_lt {p : Fin n → Fin n} {k : ℕ} {x r : Fin n} (h : RootedK p k x r) : k < n := by
  have hinj : Function.Injective (fun m : Fin (k + 1) => p^[(m : ℕ)] x) := by
    intro a b hab
    have hak : (a : ℕ) ≤ k := by omega
    have hbk : (b : ℕ) ≤ k := by omega
    have ha := rootedK_iterate (p := p) (a : ℕ) k x r h hak
    have hb := rootedK_iterate (p := p) (b : ℕ) k x r h hbk
    simp only at hab
    rw [hab] at ha
    rcases rootedK_unique hb _ _ ha with ⟨h1, _⟩
    exact Fin.ext (by omega)
  have hcard := Fintype.card_le_of_injective _ hinj
  simpa using hcard

/- Path compression: updating a node to point directly at its own root does
   not change which root any node reaches. -/
lemma rootedAt_update_of {q : Fin n → Fin n} {x r : Fin n} (hxr : RootedAt q x r)
    {k : ℕ} {y s : Fin n} (h : RootedK q k y s) :
    RootedAt (Function.update q x r) y s := by
  induction h with
  | root y hy =>
    by_cases hyx : y = x
    · subst hyx
      have hr : r = y := rootedAt_of_fix hy hxr
      subst hr
      have hupd : Function.update q r r = q := by
        funext z
        by_cases hz : z = r
        · subst hz
          rw [Function.update_same]
          exact hy.symm
        · rw [Function.update_noteq hz]
      rw [hupd]
      exact rootedAt_root hy
    · refine rootedAt_root ?_
      rw [Function.update_noteq hyx]
      exact hy
  | step k y s hne hk ih =>
    by_cases hyx : y = x
    · subst hyx
      have hs : s = r := rootedAt_unique (rootedAt_stepOf hne ⟨k, hk⟩) hxr
      subst hs
      have hrfix : q s = s := rootedAt_fix hxr
      have hry : s ≠ y := by
        intro he
        rw [he] at hrfix
        exact hne hrfix
      refine rootedAt_stepOf ?_ ?_
      · rw [Function.update_same]
        exact hry
      · rw [Function.update_same]
        refine rootedAt_root ?_
        rw [Function.update_noteq hry]
        exact hrfix
    · have hupdy : Function.update q x r y = q y := Function.update_noteq hyx r q
      refine rootedAt_stepOf ?_ ?_
      · rw [hupdy]
        exact hne
      · rw [hupdy]
        exact ih

lemma rootedAt_update_to {q : Fin n → Fin n} {x r : Fin n} (hxr : RootedAt q x r)
    {k : ℕ} {y s : Fin n} (h : RootedK (Function.update q x r) k y s) :
    RootedAt q y s := by
  induction h with
  | root y hy =>
    by_cases hyx : y = x
    · subst hyx
      rw [Function.update_same] at hy
      rw [hy] at hxr
      exact hxr
    · rw [Function.update_noteq hyx] at hy
      exact rootedAt_root hy
  | step k y s hne hk ih =>
    by_cases hyx : y = x
    · subst hyx
      rw [Function.update_same] at hne
      have hfixq : q r = r := rootedAt_fix hxr
      have hfix : Function.update q y r r = r := by
        rw [Function.update_noteq hne]
        exact hfixq
      have hupdy : Function.update q y r y = r := Function.update_same y r q
      rw [hupdy] at hk
      have hs : s = r := rootedAt_of_fix hfix ⟨k, hk⟩
      rw [hs]
      exact hxr
    · have hupdy : Function.update q x r y = q y := Function.update_noteq hyx r q
      rw [hupdy] at ih
      refine rootedAt_stepOf ?_ ih
      rw [hupdy] at hne
      exact hne

lemma rootedAt_update_iff {q : Fin n → Fin n} {x r : Fin n} (hxr : RootedAt q x r)
    (y s : Fin n) :
    RootedAt (Function.update q x r) y s ↔ RootedAt q y s := by
  constructor
  · intro h
    obtain ⟨k, hk⟩ := h
    exact rootedAt_update_to hxr hk
  · intro h
    obtain ⟨k, hk⟩ := h
    exact rootedAt_update_of hxr hk

/- findUF with enough fuel returns the root of x and leaves every node
   rooted where it was (path compression preserves the partition). -/
lemma findUF_spec :
    ∀ (fuel k : ℕ) (p : Fin n → Fin n) (x r : Fin n), RootedK p k x r → k ≤ fuel →
      (findUF fuel p x).2 = r ∧
        ∀ y s, RootedAt (findUF fuel p x).1 y s ↔ RootedAt p y s := by
  intro fuel
  induction fuel with
  | zero =>
    intro k p x r h hk
    have hk0 : k = 0 := by omega
    subst hk0
    cases h with
    | root _ hx => exact ⟨rfl, fun y s => Iff.rfl⟩
  | succ fuel ih =>
    intro k p x r h hk
    by_cases hx : p x = x
    · have hr : r = x := rootedAt_of_fix hx ⟨k, h⟩
      have hfx : findUF (fuel + 1) p x = (p, x) := by
        simp only [findUF]
        rw [if_pos hx]
      rw [hfx, hr]
      exact ⟨rfl, fun y s => Iff.rfl⟩
    · cases h with
      | root _ hx2 => exact absurd hx2 hx
      | step k2 _ _ hne hk2 =>
        have hres := ih k2 p (p x) r hk2 (by omega)
        have hxr : RootedAt (findUF fuel p (p x)).1 x r := by
          rw [hres.2 x r]
          exact rootedAt_stepOf hne ⟨k2, hk2⟩
        simp only [findUF, if_neg hx]
        constructor
        · exact hres.1
        · intro y s
          rw [hres.1]
          rw [rootedAt_update_iff hxr y s, hres.2 y s]

/- Fuel n is always enough under the forest invariant. -/
lemma findUF_n {p : Fin n → Fin n} (hp : TerminatesUF p) (x : Fin n) :
    RootedAt p x (findUF n p x).2 ∧
      ∀ y s, RootedAt (findUF n p x).1 y s ↔ RootedAt p y s := by
  obtain ⟨r, k, hk⟩ := hp x
  have hlt : k < n := rootedK_lt hk
  have hs := findUF_spec n k p x r hk (by omega)
  refine ⟨?_, hs.2⟩
  rw [hs.1]
  exact ⟨k, hk⟩

lemma terminates_of_iff {p q : Fin n → Fin n}
    (h : ∀ y s, RootedAt q y s ↔ RootedAt p y s) (hp : TerminatesUF p) : TerminatesUF q := by
  intro x
  obtain ⟨r, hr⟩ := hp x
  exact ⟨r, (h x r).mpr hr⟩

/- Two nodes are in the same union-find class when they share a root. -/
def sameClass (p : Fin n → Fin n) (x y : Fin n) : Prop :=
  ∃ r, RootedAt p x r ∧ RootedAt p y r

lemma sameClass_of_iff {p q : Fin n → Fin n}
    (h : ∀ y s, RootedAt q y s ↔ RootedAt p y s) (x y : Fin n) :
    sameClass q x y ↔ sameClass p x y := by
  constructor
  · rintro ⟨r, h1, h2⟩
    exact ⟨r, (h x r).mp h1, (h y r).mp h2⟩
  · rintro ⟨r, h1, h2⟩
    exact ⟨r, (h x r).mpr h1, (h y r).mpr h2⟩

/- Linking root a beneath root b merges exactly the two classes. -/
lemma rootedAt_link_to {q : Fin n → Fin n} {a b : Fin n}
    (ha : q a = a) (hb : q b = b) (hab : a ≠ b) :
    ∀ {k : ℕ} {y s : Fin n}, RootedK (Function.update q a b) k y s →
      ((RootedAt q y s ∧ s ≠ a) ∨ (RootedAt q y a ∧ s = b)) := by
  intro k y s h
  have hba : b ≠ a := fun he => hab he.symm
  induction h with
  | root y hy =>
    by_cases hya : y = a
    · subst hya
      rw [Function.update_same] at hy
      exact absurd hy hba
    · rw [Function.update_noteq hya] at hy
      exact Or.inl ⟨rootedAt_root hy, hya⟩
  | step k y s hne hk ih =>
    by_cases hya : y = a
    · subst hya
      rw [Function.update_same] at hk
      have hbfix : Function.update q y b b = b := by
        rw [Function.update_noteq hba]
        exact hb
      have hs : s = b := rootedAt_of_fix hbfix ⟨k, hk⟩
      exact Or.inr ⟨rootedAt_root ha, hs⟩
    · rw [Function.update_noteq hya] at hne
      have hupdy : Function.update q a b y = q y := Function.update_noteq hya b q
      rw [hupdy] at ih
      rcases ih with ⟨h1, h2⟩ | ⟨h1, h2⟩
      · exact Or.inl ⟨rootedAt_stepOf hne h1, h2⟩
      · exact Or.inr ⟨rootedAt_stepOf hne h1, h2⟩

lemma rootedAt_link_of {q : Fin n → Fin n} {a b : Fin n}
    (ha : q a = a) (hb : q b = b) (hab : a ≠ b) :
    ∀ {y s : Fin n},
      ((RootedAt q y s ∧ s ≠ a) ∨ (RootedAt q y a ∧ s = b)) →
      RootedAt (Function.update q a b) y s := by
  have hba : b ≠ a := fun he => hab he.symm
  have hbroot : RootedAt (Function.update q a b) b b := by
    refine rootedAt_root ?_
    rw [Function.update_noteq hba]
    exact hb
  have hab2 : RootedAt (Function.update q a b) a b := by
    refine rootedAt_stepOf ?_ ?_
    · rw [Function.update_same]
      exact hba
    · rw [Function.update_same]
      exact hbroot
  have havoid : ∀ (k : ℕ) (y s : Fin n), RootedK q k y s → s ≠ a →
      RootedAt (Function.update q a b) y s := by
    intro k
    induction k with
    | zero =>
      intro y s hk hs
      cases hk with
      | root _ hy =>
        refine rootedAt_root ?_
        rw [Function.update_noteq hs]
        exact hy
    | succ k ih =>
      intro y s hk hs
      cases hk with
      | step _ _ _ hne hk2 =>
        have hya : y ≠ a := by
          intro he
          rw [he] at hne
          exact hne ha
        refine rootedAt_stepOf ?_ ?_
        · rw [Function.update_noteq hya]
          exact hne
        · rw [Function.update_noteq hya]
          exact ih (q y) s hk2 hs
  have hreach : ∀ (k : ℕ) (y r : Fin n), RootedK q k y r → r = a →
      RootedAt (Function.update q a b) y b := by
    intro k
    induction k with
    | zero =>
      intro y r hk hr
      cases hk with
      | root _ hy =>
        subst hr
        exact hab2
    | succ k ih =>
      intro y r hk hr
      cases hk with
      | step _ _ _ hne hk2 =>
        have hya : y ≠ a := by
          intro he
          rw [he] at hne
          exact hne ha
        refine rootedAt_stepOf ?_ ?_
        · rw [Function.update_noteq hya]
          exact hne
        · rw [Function.update_noteq hya]
          exact ih (q y) r hk2 hr
  intro y s h
  rcases h with ⟨⟨k, hk⟩, hs⟩ | ⟨⟨k, hk⟩, hs⟩
  · exact havoid k y s hk hs
  · subst hs
    exact hreach k y a hk rfl

lemma sameClass_iff_roots {p : Fin n → Fin n} {x y rx ry : Fin n}
    (hx : RootedAt p x rx) (hy : RootedAt p y ry) :
    sameClass p x y ↔ rx = ry := by
  constructor
  · rintro ⟨r, h1, h2⟩
    exact (rootedAt_unique hx h1).trans (rootedAt_unique hy h2).symm
  · intro h
    exact ⟨rx, hx, by rw [h]; exact hy⟩

/- union merges exactly the classes of i and j and preserves the forest
   invariant. -/
lemma unionUF_spec {p : Fin n → Fin n} (hp : TerminatesUF p) (i j : Fin n) :
    TerminatesUF (unionUF n p i j) ∧
      ∀ x y, sameClass (unionUF n p i j) x y ↔
        (sameClass p x y ∨ (sameClass p x i ∧ sameClass p y j) ∨
          (sameClass p x j ∧ sameClass p y i)) := by
  have hA := findUF_n hp i
  have hpA : TerminatesUF (findUF n p i).1 := terminates_of_iff hA.2 hp
  have hB := findUF_n hpA j
  have hri : RootedAt p i (findUF n p i).2 := hA.1
  have hrj : RootedAt p j (findUF n (findUF n p i).1 j).2 := (hA.2 j _).mp hB.1
  have hBiff : ∀ y s, RootedAt (findUF n (findUF n p i).1 j).1 y s ↔ RootedAt p y s := by
    intro y s
    rw [hB.2 y s, hA.2 y s]
  have huni : unionUF n p i j
      = if (findUF n p i).2 = (findUF n (findUF n p i).1 j).2
        then (findUF n (findUF n p i).1 j).1
        else Function.update (findUF n (findUF n p i).1 j).1 (findUF n p i).2
               (findUF n (findUF n p i).1 j).2 := rfl
  set ri := (findUF n p i).2 with hridef
  set rj := (findUF n (findUF n p i).1 j).2 with hrjdef
  set q0 := (findUF n (findUF n p i).1 j).1 with hq0def
  by_cases hroots : ri = rj
  · rw [huni, if_pos hroots]
    refine ⟨terminates_of_iff hBiff hp, ?_⟩
    intro x y
    rw [sameClass_of_iff hBiff]
    constructor
    · exact Or.inl
    · rintro (h | ⟨h1, h2⟩ | ⟨h1, h2⟩)
      · exact h
      · obtain ⟨r1, hx1, hi1⟩ := h1
        obtain ⟨r2, hy2, hj2⟩ := h2
        have e1 : r1 = ri := rootedAt_unique hi1 hri
        have e2 : r2 = rj := rootedAt_unique hj2 hrj
        refine ⟨ri, by rw [← e1]; exact hx1, ?_⟩
        rw [hroots, ← e2]
        exact hy2
      · obtain ⟨r1, hx1, hj1⟩ := h1
        obtain ⟨r2, hy2, hi2⟩ := h2
        have e1 : r1 = rj := rootedAt_unique hj1 hrj
        have e2 : r2 = ri := rootedAt_unique hi2 hri
        refine ⟨ri, ?_, by rw [← e2]; exact hy2⟩
        rw [hroots, ← e1]
        exact hx1
  · rw [huni, if_neg hroots]
    have hriq : RootedAt q0 i ri := (hBiff i ri).mpr hri
    have hrjq : RootedAt q0 j rj := (hBiff j rj).mpr hrj
    have hfixi : q0 ri = ri := rootedAt_fix hriq
    have hfixj : q0 rj = rj := rootedAt_fix hrjq
    have hiff : ∀ y s, RootedAt (Function.update q0 ri rj) y s ↔
        ((RootedAt p y s ∧ s ≠ ri) ∨ (RootedAt p y ri ∧ s = rj)) := by
      intro y s
      constructor
      · rintro ⟨k, hk⟩
        rcases rootedAt_link_to hfixi hfixj hroots hk with ⟨h1, h2⟩ | ⟨h1, h2⟩
        · exact Or.inl ⟨(hBiff y s).mp h1, h2⟩
        · exact Or.inr ⟨(hBiff y ri).mp h1, h2⟩
      · intro h
        apply rootedAt_link_of hfixi hfixj hroots
        rcases h with ⟨h1, h2⟩ | ⟨h1, h2⟩
        · exact Or.inl ⟨(hBiff y s).mpr h1, h2⟩
        · exact Or.inr ⟨(hBiff y ri).mpr h1, h2⟩
    have hrjri : rj ≠ ri := fun he => hroots he.symm
    constructor
    · intro x
      obtain ⟨rx, hrx⟩ := hp x
      by_cases hxa : rx = ri
      · refine ⟨rj, (hiff x rj).mpr (Or.inr ⟨?_, rfl⟩)⟩
        rw [← hxa]
        exact hrx
      · exact ⟨rx, (hiff x rx).mpr (Or.inl ⟨hrx, hxa⟩)⟩
    · intro x y
      constructor
      · rintro ⟨r, hxr, hyr⟩
        rcases (hiff x r).mp hxr with ⟨hx1, hs1⟩ | ⟨hx1, hs1⟩ <;>
          rcases (hiff y r).mp hyr with ⟨hy1, hs2⟩ | ⟨hy1, hs2⟩
        · exact Or.inl ⟨r, hx1, hy1⟩
        · -- r = rj: x rooted at rj, y rooted at ri
          subst hs2
          exact Or.inr (Or.inr ⟨⟨rj, hx1, hrj⟩, ⟨ri, hy1, hri⟩⟩)
        · subst hs1
          exact Or.inr (Or.inl ⟨⟨ri, hx1, hri⟩, ⟨rj, hy1, hrj⟩⟩)
        · exact Or.inl ⟨ri, hx1, hy1⟩
      · rintro (⟨r, hxr, hyr⟩ | ⟨⟨r1, hx1, hi1⟩, ⟨r2, hy2, hj2⟩⟩ | ⟨⟨r1, hx1, hj1⟩, ⟨r2, hy2, hi2⟩⟩)
        · by_cases hra : r = ri
          · subst hra
            refine ⟨rj, (hiff x rj).mpr (Or.inr ⟨hxr, rfl⟩),
              (hiff y rj).mpr (Or.inr ⟨hyr, rfl⟩)⟩
          · exact ⟨r, (hiff x r).mpr (Or.inl ⟨hxr, hra⟩),
              (hiff y r).mpr (Or.inl ⟨hyr, hra⟩)⟩
        · have e1 : r1 = ri := rootedAt_unique hi1 hri
          have e2 : r2 = rj := rootedAt_unique hj2 hrj
          subst e1
          subst e2
          refine ⟨rj, (hiff x rj).mpr (Or.inr ⟨hx1, rfl⟩),
            (hiff y rj).mpr (Or.inl ⟨hy2, hrjri⟩)⟩
        · have e1 : r1 = rj := rootedAt_unique hj1 hrj
          have e2 : r2 = ri := rootedAt_unique hi2 hri
          subst e1
          subst e2
          refine ⟨rj, (hiff x rj).mpr (Or.inl ⟨hx1, hrjri⟩),
            (hiff y rj).mpr (Or.inr ⟨hy2, rfl⟩)⟩

/- ### Equivalence closure of a pairwise relation (the clustering the
   union-find loop computes) -/

inductive EqClos {α : Type} (S : α → α → Prop) : α → α → Prop
  | rel {x y : α} : S x y → EqClos S x y
  | refl (x : α) : EqClos S x x
  | symm {x y : α} : EqClos S x y → EqClos S y x
  | trans {x y z : α} : EqClos S x y → EqClos S y z → EqClos S x z

lemma eqClos_mono {α : Type} {S T : α → α → Prop} (h : ∀ a b, S a b → T a b) :
    ∀ {x y : α}, EqClos S x y → EqClos T x y := by
  intro x y he
  induction he with
  | rel hab => exact EqClos.rel (h _ _ hab)
  | refl a => exact EqClos.refl a
  | symm _ ih => exact ih.symm
  | trans _ _ ih1 ih2 => exact ih1.trans ih2

lemma eqClos_congr {α : Type} {S T : α → α → Prop} (h : ∀ a b, S a b ↔ T a b) (x y : α) :
    EqClos S x y ↔ EqClos T x y :=
  ⟨eqClos_mono (fun a b => (h a b).mp), eqClos_mono (fun a b => (h a b).mpr)⟩

/- Adding the single generator (i, j) merges the closure classes of i and j. -/
lemma eqClos_pair {α : Type} {S : α → α → Prop} {i j : α} {x y : α} :
    EqClos (fun a b => S a b ∨ (a = i ∧ b = j)) x y ↔
      (EqClos S x y ∨ (EqClos S x i ∧ EqClos S y j) ∨ (EqClos S x j ∧ EqClos S y i)) := by
  constructor
  · intro h
    induction h with
    | rel hab =>
      rcases hab with hS | ⟨ha, hb⟩
      · exact Or.inl (EqClos.rel hS)
      · subst ha
        subst hb
        exact Or.inr (Or.inl ⟨EqClos.refl _, EqClos.refl _⟩)
    | refl a => exact Or.inl (EqClos.refl a)
    | symm _ ih =>
      rcases ih with hL | ⟨h1, h2⟩ | ⟨h1, h2⟩
      · exact Or.inl hL.symm
      · exact Or.inr (Or.inr ⟨h2, h1⟩)
      · exact Or.inr (Or.inl ⟨h2, h1⟩)
    | trans _ _ ih1 ih2 =>
      rcases ih1 with hL | ⟨hxi, hyj⟩ | ⟨hxj, hyi⟩ <;>
        rcases ih2 with hL2 | ⟨hyi2, hzj⟩ | ⟨hyj2, hzi⟩
      · exact Or.inl (hL.trans hL2)
      · exact Or.inr (Or.inl ⟨hL.trans hyi2, hzj⟩)
      · exact Or.inr (Or.inr ⟨hL.trans hyj2, hzi⟩)
      · exact Or.inr (Or.inl ⟨hxi, (hL2.symm).trans hyj⟩)
      · exact Or.inl (((hxi.trans hyi2.symm).trans hyj).trans hzj.symm)
      · exact Or.inl (hxi.trans hzi.symm)
      · exact Or.inr (Or.inr ⟨hxj, hL2.symm.trans hyi⟩)
      · exact Or.inl (hxj.trans hzj.symm)
      · exact Or.inl (((hxj.trans hyj2.symm).trans hyi).trans hzi.symm)
  · rintro (hL | ⟨h1, h2⟩ | ⟨h1, h2⟩)
    · exact eqClos_mono (fun a b => Or.inl) hL
    · refine EqClos.trans (EqClos.trans (eqClos_mono (fun a b => Or.inl) h1) ?_)
        (EqClos.symm (eqClos_mono (fun a b => Or.inl) h2))
      exact EqClos.rel (Or.inr ⟨rfl, rfl⟩)
    · refine EqClos.trans (EqClos.trans (eqClos_mono (fun a b => Or.inl) h1) (EqClos.symm ?_))
        (EqClos.symm (eqClos_mono (fun a b => Or.inl) h2))
      exact EqClos.rel (Or.inr ⟨rfl, rfl⟩)

lemma eqClos_bot {α : Type} (x y : α) : EqClos (fun _ _ => False) x y ↔ x = y := by
  constructor
  · intro h
    induction h with
    | rel hab => exact absurd hab (fun h => h)
    | refl a => rfl
    | symm _ ih => exact ih.symm
    | trans _ _ ih1 ih2 => exact ih1.trans ih2
  · intro h
    subst h
    exact EqClos.refl x

/- ### The fuzzy pair loop (finder.py lines 80-84) -/

/- All index pairs (i, j) with i < j, in row-major order:
   for i in range(n): for j in range(i + 1, n). -/
def pairList (n : ℕ) : List (Fin n × Fin n) :=
  (List.finRange n).flatMap (fun i =>
    ((List.finRange n).filter (fun j => decide (i < j))).map (fun j => (i, j)))

lemma pairList_mem {n : ℕ} (a b : Fin n) : (a, b) ∈ pairList n ↔ a < b := by
  constructor
  · intro h
    rw [pairList, List.mem_flatMap] at h
    obtain ⟨i, hi, hmem⟩ := h
    rw [List.mem_map] at hmem
    obtain ⟨j, hj, hij⟩ := hmem
    rw [List.mem_filter] at hj
    rw [Prod.mk.injEq] at hij
    obtain ⟨hia, hjb⟩ := hij
    have hlt := hj.2
    rw [decide_eq_true_eq] at hlt
    rw [← hia, ← hjb]
    exact hlt
  · intro h
    rw [pairList, List.mem_flatMap]
    refine ⟨a, List.mem_finRange a, ?_⟩
    rw [List.mem_map]
    refine ⟨b, ?_, rfl⟩
    rw [List.mem_filter]
    refine ⟨List.mem_finRange b, ?_⟩
    rw [decide_eq_true_eq]
    exact h

/- One iteration of the pair loop: union the pair when its Hamming distance
   is at most max_distance (finder.py lines 82-84). -/
def ufStep {n : ℕ} (hs : Fin n → FP) (maxD : ℤ) (p : Fin n → Fin n) (ij : Fin n × Fin n) :
    Fin n → Fin n :=
  if (hammingDist (hs ij.1) (hs ij.2) : ℤ) ≤ maxD then unionUF n p ij.1 ij.2 else p

/- The parent map after the whole pair loop, started from
   parent = list(range(n)) (finder.py line 69). -/
def unionPhase {n : ℕ} (hs : Fin n → FP) (maxD : ℤ) : Fin n → Fin n :=
  (pairList n).foldl (ufStep hs maxD) (fun x => x)

lemma terminates_id : TerminatesUF (fun z : Fin n => z) :=
  fun x => ⟨x, rootedAt_root rfl⟩

lemma sameClass_id (x y : Fin n) : sameClass (fun z : Fin n => z) x y ↔ x = y := by
  constructor
  · rintro ⟨r, h1, h2⟩
    have e1 : r = x := rootedAt_of_fix rfl h1
    have e2 : r = y := rootedAt_of_fix rfl h2
    exact e1.symm.trans e2
  · intro h
    subst h
    exact ⟨x, rootedAt_root rfl, rootedAt_root rfl⟩

lemma ufFold_spec {n : ℕ} (hs : Fin n → FP) (maxD : ℤ) :
    ∀ (L : List (Fin n × Fin n)) (p : Fin n → Fin n) (S : Fin n → Fin n → Prop),
      TerminatesUF p → (∀ x y, sameClass p x y ↔ EqClos S x y) →
      TerminatesUF (L.foldl (ufStep hs maxD) p) ∧
        ∀ x y, sameClass (L.foldl (ufStep hs maxD) p) x y ↔
          EqClos (fun a b => S a b ∨
            ((a, b) ∈ L ∧ (hammingDist (hs a) (hs b) : ℤ) ≤ maxD)) x y := by
  intro L
  induction L with
  | nil =>
    intro p S hp hinv
    refine ⟨hp, ?_⟩
    intro x y
    rw [List.foldl_nil, hinv x y]
    exact eqClos_congr (fun a b => by simp) x y
  | cons ij L ih =>
    intro p S hp hinv
    obtain ⟨i, j⟩ := ij
    by_cases hd : (hammingDist (hs i) (hs j) : ℤ) ≤ maxD
    · have hstep : (((i, j) :: L).foldl (ufStep hs maxD) p)
          = L.foldl (ufStep hs maxD) (unionUF n p i j) := by
        rw [List.foldl_cons]
        have : ufStep hs maxD p (i, j) = unionUF n p i j := by
          rw [ufStep, if_pos hd]
        rw [this]
      have hu := unionUF_spec hp i j
      have hinv2 : ∀ x y, sameClass (unionUF n p i j) x y ↔
          EqClos (fun a b => S a b ∨ (a = i ∧ b = j)) x y := by
        intro x y
        rw [hu.2 x y, hinv x y, hinv x i, hinv y j, hinv x j, hinv y i]
        exact eqClos_pair.symm
      have hmain := ih (unionUF n p i j) _ hu.1 hinv2
      rw [hstep]
      refine ⟨hmain.1, ?_⟩
      intro x y
      rw [hmain.2 x y]
      apply eqClos_congr
      intro a b
      constructor
      · rintro ((hS | ⟨ha, hb⟩) | ⟨hm, hD⟩)
        · exact Or.inl hS
        · subst ha
          subst hb
          exact Or.inr ⟨List.mem_cons_self _ _, hd⟩
        · exact Or.inr ⟨List.mem_cons_of_mem _ hm, hD⟩
      · rintro (hS | ⟨hm, hD⟩)
        · exact Or.inl (Or.inl hS)
        · rcases List.mem_cons.mp hm with he | hm2
          · rw [Prod.mk.injEq] at he
            exact Or.inl (Or.inr he)
          · exact Or.inr ⟨hm2, hD⟩
    · have hstep : (((i, j) :: L).foldl (ufStep hs maxD) p) = L.foldl (ufStep hs maxD) p := by
        rw [List.foldl_cons]
        have : ufStep hs maxD p (i, j) = p := by
          rw [ufStep, if_neg hd]
        rw [this]
      have hmain := ih p S hp hinv
      rw [hstep]
      refine ⟨hmain.1, ?_⟩
      intro x y
      rw [hmain.2 x y]
      apply eqClos_congr
      intro a b
      constructor
      · rintro (hS | ⟨hm, hD⟩)
        · exact Or.inl hS
        · exact Or.inr ⟨List.mem_cons_of_mem _ hm, hD⟩
      · rintro (hS | ⟨hm, hD⟩)
        · exact Or.inl hS
        · rcases List.mem_cons.mp hm with he | hm2
          · exfalso
            rw [Prod.mk.injEq] at he
            rw [he.1, he.2] at hD
            exact hd hD
          · exact Or.inr ⟨hm2, hD⟩

/- Restricting a symmetric relation to ordered pairs does not change its
   equivalence closure. -/
lemma eqClos_restrict_lt {n : ℕ} {R : Fin n → Fin n → Prop}
    (hsym : ∀ a b, R a b → R b a) (x y : Fin n) :
    EqClos (fun a b => a < b ∧ R a b) x y ↔ EqClos R x y := by
  constructor
  · exact eqClos_mono (fun a b h => h.2)
  · intro h
    induction h with
    | rel hab =>
      rename_i a b
      rcases lt_trichotomy a b with hlt | heq | hgt
      · exact EqClos.rel ⟨hlt, hab⟩
      · rw [heq]
        exact EqClos.refl b
      · exact (EqClos.rel ⟨hgt, hsym a b hab⟩).symm
    | refl a => exact EqClos.refl a
    | symm _ ih => exact ih.symm
    | trans _ _ ih1 ih2 => exact ih1.trans ih2

/- Summary: after the pair loop, two indices share a root exactly when they
   are related by the equivalence closure of "Hamming distance within
   max_distance". -/
lemma unionPhase_spec {n : ℕ} (hs : Fin n → FP) (maxD : ℤ) :
    TerminatesUF (unionPhase hs maxD) ∧
      ∀ x y, sameClass (unionPhase hs maxD) x y ↔
        EqClos (fun a b => (hammingDist (hs a) (hs b) : ℤ) ≤ maxD) x y := by
  have h := ufFold_spec hs maxD (pairList n) (fun z => z) (fun _ _ => False) terminates_id
    (fun x y => by rw [sameClass_id]; exact (eqClos_bot x y).symm)
  refine ⟨h.1, ?_⟩
  intro x y
  rw [unionPhase, h.2 x y]
  have hstep : ∀ a b : Fin n,
      (False ∨ ((a, b) ∈ pairList n ∧ (hammingDist (hs a) (hs b) : ℤ) ≤ maxD)) ↔
        (a < b ∧ (hammingDist (hs a) (hs b) : ℤ) ≤ maxD) := by
    intro a b
    rw [false_or, pairList_mem]
  rw [eqClos_congr hstep x y]
  exact eqClos_restrict_lt (fun a b hab => by rw [hammingDist_comm]; exact hab) x y

/- ### Group formation (finder.py lines 87-93) -/

/- The (root, path) pairs produced by the grouping loop
   for i in range(n): groups[find(i)].append(valid_paths[i]),
   with the parent map threaded through the find calls. -/
def groupEntries {n : ℕ} (vp : Fin n → String) :
    List (Fin n) → (Fin n → Fin n) → List (Fin n × String)
  | [], _ => []
  | i :: rest, p =>
    ((findUF n p i).2, vp i) :: groupEntries vp rest (findUF n p i).1

lemma groupEntries_snd {n : ℕ} (vp : Fin n → String) :
    ∀ (l : List (Fin n)) (p : Fin n → Fin n),
      (groupEntries vp l p).map Prod.snd = l.map vp := by
  intro l
  induction l with
  | nil => intro p; rfl
  | cons i rest ih =>
    intro p
    simp only [groupEntries, List.map_cons]
    rw [ih]

lemma groupEntries_mem_left {n : ℕ} (vp : Fin n → String) :
    ∀ (l : List (Fin n)) (p : Fin n → Fin n), TerminatesUF p →
      ∀ i ∈ l, ∀ r, RootedAt p i r → (r, vp i) ∈ groupEntries vp l p := by
  intro l
  induction l with
  | nil =>
    intro p hp i hi
    exact absurd hi (List.not_mem_nil i)
  | cons i0 rest ih =>
    intro p hp i hi r hr
    have hf := findUF_n hp i0
    rcases List.mem_cons.mp hi with he | hm
    · subst he
      have : (findUF n p i).2 = r := rootedAt_unique hf.1 hr
      rw [groupEntries, this]
      exact List.mem_cons_self _ _
    · have hp2 : TerminatesUF (findUF n p i0).1 := terminates_of_iff hf.2 hp
      have hr2 : RootedAt (findUF n p i0).1 i r := (hf.2 i r).mpr hr
      exact List.mem_cons_of_mem _ (ih (findUF n p i0).1 hp2 i hm r hr2)

lemma groupEntries_mem_right {n : ℕ} (vp : Fin n → String) :
    ∀ (l : List (Fin n)) (p : Fin n → Fin n), TerminatesUF p →
      ∀ e ∈ groupEntries vp l p, ∃ i, i ∈ l ∧ e.2 = vp i ∧ RootedAt p i e.1 := by
  intro l
  induction l with
  | nil =>
    intro p hp e he
    exact absurd he (List.not_mem_nil e)
  | cons i0 rest ih =>
    intro p hp e he
    have hf := findUF_n hp i0
    rw [groupEntries] at he
    rcases List.mem_cons.mp he with he2 | hm
    · subst he2
      exact ⟨i0, List.mem_cons_self _ _, rfl, hf.1⟩
    · have hp2 : TerminatesUF (findUF n p i0).1 := terminates_of_iff hf.2 hp
      obtain ⟨i, hi, he3, hr⟩ := ih (findUF n p i0).1 hp2 e hm
      exact ⟨i, List.mem_cons_of_mem _ hi, he3, (hf.2 i e.1).mp hr⟩

/- The grouping loop itself: it builds exactly the multimap of
   groupEntries (defaultdict(list) with insertion order). -/
def groupLoop {n : ℕ} (vp : Fin n → String) :
    List (Fin n) → (Fin n → Fin n) → List (Fin n × List String) → List (Fin n × List String)
  | [], _, bs => bs
  | i :: rest, p, bs =>
    groupLoop vp rest (findUF n p i).1 (mmAdd bs (findUF n p i).2 (vp i))

lemma groupLoop_eq_mmFold {n : ℕ} (vp : Fin n → String) :
    ∀ (l : List (Fin n)) (p : Fin n → Fin n) (bs : List (Fin n × List String)),
      groupLoop vp l p bs = mmFold (groupEntries vp l p) bs := by
  intro l
  induction l with
  | nil => intro p bs; rfl
  | cons i rest ih =>
    intro p bs
    rw [groupLoop, groupEntries, ih]
    rfl

/- ### Fuzzy mode: find_duplicates with fuzzy_images=True
   (finder.py lines 30-108) -/

/- The image files surviving the extension filter, each with the outcome of
   Image.open + phash: some fingerprint, or none when decoding raised
   (finder.py lines 49-58). -/
def validEntries (images : List (String × Option FP)) : List (String × FP) :=
  images.filterMap (fun e => e.2.map (fun h => (e.1, h)))

/- hash_size = len(hashes[0].hash.flatten()) (finder.py line 65). -/
def fuzzyHashSize (ve : List (String × FP)) : ℕ := (ve.headD ("", [])).2.length

/- max_distance = int((1 - similarity_threshold) * hash_size)
   (finder.py line 66).  For thresholds in [0, 1] the value is nonnegative,
   where Python's int() truncation coincides with the floor. -/
def maxDistOf (t : ℚ) (sz : ℕ) : ℤ := ⌊(1 - t) * (sz : ℚ)⌋

/- valid_paths and hashes, indexed (finder.py lines 49-56). -/
def vpOf (ve : List (String × FP)) : Fin ve.length → String := fun i => (ve.get i).1

def hsOf (ve : List (String × FP)) : Fin ve.length → FP := fun i => (ve.get i).2

/- The union-find pair loop followed by the grouping loop, over the valid
   images, at an already-computed max_distance (finder.py lines 68-93). -/
def fuzzyCore (ve : List (String × FP)) (maxD : ℤ) : List (List String) :=
  ((groupLoop (vpOf ve) (List.finRange ve.length)
      (unionPhase (hsOf ve) maxD) []).map Prod.snd).filter
    (fun g => 1 < g.length)

/- find_duplicates(directory, fuzzy_images=True, similarity_threshold)
   (finder.py lines 30-108), taking the extension-filtered walk results as
   input.  Returns the groups with at least 2 members. -/
def find_duplicates_fuzzy (images : List (String × Option FP)) (t : ℚ) : List (List String) :=
  if images.length < 2 then []
  else
    if (validEntries images).length < 2 then []
    else
      fuzzyCore (validEntries images)
        (maxDistOf t (fuzzyHashSize (validEntries images)))

/- The sequence of files the fuzzy scan opens: every candidate once in the
   hashing loop (finder.py line 53), then, when at most 20 candidates exist
   and duplicates were found, both members of every 2-element group again in
   the debug block (finder.py lines 95-107). -/
def fuzzyReadTrace (images : List (String × Option FP)) (t : ℚ) : List String :=
  images.map Prod.fst ++
    (if images.length ≤ 20 ∧ find_duplicates_fuzzy images t ≠ [] then
      ((find_duplicates_fuzzy images t).filter (fun g => g.length = 2)).flatMap (fun g => g)
    else [])

lemma one_lt_length_of_mem_ne {α : Type} {a b : α} {l : List α}
    (ha : a ∈ l) (hb : b ∈ l) (hab : a ≠ b) : 1 < l.length := by
  cases l with
  | nil => exact absurd ha (List.not_mem_nil a)
  | cons x rest =>
    cases rest with
    | nil =>
      have h1 : a = x := List.mem_singleton.mp ha
      have h2 : b = x := List.mem_singleton.mp hb
      exact absurd (h1.trans h2.symm) hab
    | cons y rest2 =>
      simp only [List.length_cons]
      omega

lemma vpOf_injective (ve : List (String × FP)) (hnd : (ve.map Prod.fst).Nodup) :
    Function.Injective (vpOf ve) := by
  intro i j hij
  have hlen : ∀ m : Fin ve.length, (m : ℕ) < (ve.map Prod.fst).length := fun m => by
    rw [List.length_map]
    exact m.isLt
  have h1 : vpOf ve i = (ve.map Prod.fst).get ⟨i.1, hlen i⟩ := List.get_map_rev Prod.fst
  have h2 : vpOf ve j = (ve.map Prod.fst).get ⟨j.1, hlen j⟩ := List.get_map_rev Prod.fst
  have h3 : (⟨i.1, hlen i⟩ : Fin (ve.map Prod.fst).length) = ⟨j.1, hlen j⟩ :=
    hnd.get_inj_iff.mp (by rw [← h1, ← h2]; exact hij)
  have h4 := congrArg Fin.val h3
  exact Fin.ext h4

/- The groups in terms of the multimap of (root, path) entries. -/
lemma fuzzyCore_eq_mmOf (ve : List (String × FP)) (maxD : ℤ) :
    fuzzyCore ve maxD
      = ((mmOf (groupEntries (vpOf ve) (List.finRange ve.length)
          (unionPhase (hsOf ve) maxD))).map Prod.snd).filter (fun g => 1 < g.length) := by
  rw [fuzzyCore, groupLoop_eq_mmFold]
  rfl

/- The heart of fuzzy mode: two distinct valid images appear together in an
   emitted group exactly when the equivalence closure of the within-distance
   relation links their indices. -/
lemma fuzzyCore_char (ve : List (String × FP)) (maxD : ℤ)
    (hnd : (ve.map Prod.fst).Nodup) (i j : Fin ve.length) (hij : i ≠ j) :
    (∃ g, g ∈ fuzzyCore ve maxD ∧ vpOf ve i ∈ g ∧ vpOf ve j ∈ g) ↔
      EqClos (fun a b => (hammingDist (hsOf ve a) (hsOf ve b) : ℤ) ≤ maxD) i j := by
  have hup := unionPhase_spec (hsOf ve) maxD
  have hinj := vpOf_injective ve hnd
  constructor
  · rintro ⟨g, hg, hgi, hgj⟩
    rw [fuzzyCore_eq_mmOf] at hg
    rcases List.mem_filter.mp hg with ⟨hg2, hlen⟩
    rcases List.mem_map.mp hg2 with ⟨⟨r, vs⟩, hmem, hsnd⟩
    simp only at hsnd
    subst hsnd
    have hei := mmOf_val_mem _ r vs _ hmem hgi
    have hej := mmOf_val_mem _ r vs _ hmem hgj
    obtain ⟨i0, hi0mem, hi0snd, hi0root⟩ :=
      groupEntries_mem_right (vpOf ve) _ _ hup.1 _ hei
    obtain ⟨j0, hj0mem, hj0snd, hj0root⟩ :=
      groupEntries_mem_right (vpOf ve) _ _ hup.1 _ hej
    simp only at hi0snd hj0snd
    have hii : i0 = i := hinj hi0snd.symm
    have hjj : j0 = j := hinj hj0snd.symm
    rw [hii] at hi0root
    rw [hjj] at hj0root
    exact (hup.2 i j).mp ⟨r, hi0root, hj0root⟩
  · intro hcl
    obtain ⟨r, hri, hrj⟩ := (hup.2 i j).mpr hcl
    have hei : (r, vpOf ve i) ∈ groupEntries (vpOf ve) (List.finRange ve.length)
        (unionPhase (hsOf ve) maxD) :=
      groupEntries_mem_left (vpOf ve) _ _ hup.1 i (List.mem_finRange i) r hri
    have hej : (r, vpOf ve j) ∈ groupEntries (vpOf ve) (List.finRange ve.length)
        (unionPhase (hsOf ve) maxD) :=
      groupEntries_mem_left (vpOf ve) _ _ hup.1 j (List.mem_finRange j) r hrj
    obtain ⟨vs, hvs, hvi⟩ := mmOf_mem_of_entry _ r (vpOf ve i) hei
    obtain ⟨vs2, hvs2, hvj0⟩ := mmOf_mem_of_entry _ r (vpOf ve j) hej
    have hvseq : vs2 = vs := by
      have h1 := (mm_mem_iff_get _ (mmKeys_nodup_mmOf _) r vs).mp hvs
      have h2 := (mm_mem_iff_get _ (mmKeys_nodup_mmOf _) r vs2).mp hvs2
      rw [h1] at h2
      exact (Option.some.injEq _ _).mp h2.symm
    rw [hvseq] at hvj0
    have hvpij : vpOf ve i ≠ vpOf ve j := fun he => hij (hinj he)
    have hlen : 1 < vs.length := one_lt_length_of_mem_ne hvi hvj0 hvpij
    refine ⟨vs, ?_, hvi, hvj0⟩
    rw [fuzzyCore_eq_mmOf]
    refine List.mem_filter.mpr ⟨List.mem_map.mpr ⟨(r, vs), hvs, rfl⟩, ?_⟩
    rw [decide_eq_true_eq]
    exact hlen

/- The C3 invariants for fuzzy mode: groups of size at least 2, no
   duplicated path inside a group, pairwise disjoint groups. -/
lemma fuzzyCore_invariants (ve : List (String × FP)) (maxD : ℤ)
    (hnd : (ve.map Prod.fst).Nodup) :
    (∀ g ∈ fuzzyCore ve maxD, g.Nodup ∧ 2 ≤ g.length) ∧
      (fuzzyCore ve maxD).Pairwise (fun g1 g2 => ∀ p, p ∈ g1 → p ∉ g2) := by
  have hinj := vpOf_injective ve hnd
  have hsnd : (groupEntries (vpOf ve) (List.finRange ve.length)
      (unionPhase (hsOf ve) maxD)).map Prod.snd = (List.finRange ve.length).map (vpOf ve) :=
    groupEntries_snd (vpOf ve) _ _
  have hsndnd : ((groupEntries (vpOf ve) (List.finRange ve.length)
      (unionPhase (hsOf ve) maxD)).map Prod.snd).Nodup := by
    rw [hsnd]
    exact (List.nodup_finRange ve.length).map hinj
  have hdet : ∀ (a : String) (k1 k2 : Fin ve.length),
      (k1, a) ∈ groupEntries (vpOf ve) (List.finRange ve.length)
        (unionPhase (hsOf ve) maxD) →
      (k2, a) ∈ groupEntries (vpOf ve) (List.finRange ve.length)
        (unionPhase (hsOf ve) maxD) → k1 = k2 := by
    intro a k1 k2 h1 h2
    have he : (k1, a) = (k2, a) :=
      List.inj_on_of_nodup_map hsndnd h1 h2 rfl
    rw [Prod.mk.injEq] at he
    exact he.1
  constructor
  · intro g hg
    rw [fuzzyCore_eq_mmOf] at hg
    rcases List.mem_filter.mp hg with ⟨hg2, hlen⟩
    rcases List.mem_map.mp hg2 with ⟨⟨r, vs⟩, hmem, hsnd2⟩
    simp only at hsnd2
    subst hsnd2
    rw [decide_eq_true_eq] at hlen
    exact ⟨mmOf_bucket_nodup _ hsndnd r vs hmem, hlen⟩
  · rw [fuzzyCore_eq_mmOf]
    have hpair := mmOf_pairwise_disjoint _ hdet
    have hmap : ((mmOf (groupEntries (vpOf ve) (List.finRange ve.length)
        (unionPhase (hsOf ve) maxD))).map Prod.snd).Pairwise
          (fun g1 g2 => ∀ p, p ∈ g1 → p ∉ g2) :=
      List.pairwise_map.mpr hpair
    exact hmap.sublist (List.filter_sublist _)

/- ### Threshold Advisor (cli.py lines 122-256) -/

/- Python's round(x, 2): round half to even.  The values rounded here are
   of the form 1 - d/64, exactly representable in binary floating point, so
   the tie-breaking is exact and this rational model agrees with Python. -/
def pyRound2 (x : ℚ) : ℚ :=
  let y := x * 100
  let f : ℤ := ⌊y⌋
  let frac := y - (f : ℚ)
  if frac < 1/2 then (f : ℚ) / 100
  else if 1/2 < frac then ((f + 1 : ℤ) : ℚ) / 100
  else (if f % 2 = 0 then (f : ℚ) else ((f + 1 : ℤ) : ℚ)) / 100

/- The quick suggestion block (cli.py lines 213-223): min over the strictly
   positive distances plus a 3-bit buffer, as a similarity over a 64-bit
   fingerprint, rounded then clamped to [0.70, 0.90]; 0.95 when every
   distance is zero. -/
def suggestedSim (dists : List ℕ) : ℚ :=
  match (dists.filter (fun d => decide (0 < d))).min? with
  | some m => max (70/100) (min (90/100) (pyRound2 (1 - ((m + 3 : ℕ) : ℚ) / 64)))
  | none => 95/100

/- The capped candidate list (cli.py lines 166-167): image_paths[:max_images]
   when the cap is positive. -/
def cappedImages (images : List (String × Option FP)) (maxImages : ℕ) :
    List (String × Option FP) :=
  if 0 < maxImages then images.take maxImages else images

/- All pairwise distances of the valid images, upper triangle
   (cli.py lines 193-198).  The advisor sorts them for display; the
   suggestion and the histogram do not depend on the order. -/
def advDistances (ve : List (String × FP)) : List ℕ :=
  (pairList ve.length).map (fun ij => hammingDist (hsOf ve ij.1) (hsOf ve ij.2))

/- The observable outcome of the threshold command (cli.py lines 169-226):
   two distinct Exit(1) error results, the unreachable no-pairs Exit(0), or
   a report carrying the suggested similarity. -/
inductive AdvisorOut
  | notEnough
  | tooFewValid
  | noPairs
  | report (suggestion : ℚ)
deriving DecidableEq

def thresholdOutcome (images : List (String × Option FP)) (maxImages : ℕ) : AdvisorOut :=
  let capped := cappedImages images maxImages
  if capped.length < 2 then .notEnough
  else
    let ve := validEntries capped
    if ve.length < 2 then .tooFewValid
    else if advDistances ve = [] then .noPairs
    else .report (suggestedSim (advDistances ve))

/- ### The verbose histogram (cli.py lines 234-251) -/

def histThresholds : List ℕ := [0, 5, 10, 15, 20, 25, 30]

/- The counts-dict key a distance lands on: the first boundary at or above
   it, and key 30 again for the for-else overflow branch
   (cli.py lines 239-245). -/
def bucketKey (d : ℕ) : ℕ := (histThresholds.find? (fun t => decide (d ≤ t))).getD 30

/- counts[t] after the loop. -/
def histCounts (dists : List ℕ) (t : ℕ) : ℕ :=
  (dists.filter (fun d => decide (bucketKey d = t))).length

/- The eight counts the verbose report prints: one line per boundary plus
   the "> 30 bits" line, which prints counts[30] again
   (cli.py lines 248-251). -/
def histReported (dists : List ℕ) : List ℕ :=
  histThresholds.map (histCounts dists) ++ [histCounts dists 30]

/- ### Deletion (finder.py lines 136-168, driven by cli.py lines 106-117) -/

/- The user's answer at one group prompt: the literal skip word, a string
   int() parses to an integer, or anything that raises ValueError. -/
inductive Choice
  | skipAll
  | keepNum (k : ℤ)
  | badInput

/- The deletion loop body over one group,
   for i, path in enumerate(group): if i != keep_idx: ...
   (finder.py lines 154-161): the paths at every position other than ki. -/
def othersAux (ki : ℤ) : List String → ℕ → List String
  | [], _ => []
  | p :: rest, idx =>
    if (idx : ℤ) ≠ ki then p :: othersAux ki rest (idx + 1) else othersAux ki rest (idx + 1)

def othersOf (g : List String) (ki : ℤ) : List String := othersAux ki g 0

/- What delete_duplicates does, as data: the return flag, the os.remove
   calls in order, the "Would have deleted" messages in order, and the
   invalid-answer reports printed at lines 165 and 167, in order. -/
structure DeleteTrace where
  anyDeleted : Bool
  removed : List String
  wouldRemove : List String
  invalidReports : List String
deriving DecidableEq

/- delete_duplicates (finder.py lines 136-168).  The prompt answers arrive
   as a stream indexed by group position.  An out-of-range integer prints
   "Invalid choice; skipping" (line 165); a string int() rejects prints
   "Invalid input; skipping" (line 167); 'skip' continues silently. -/
def delete_duplicates : List (List String) → (ℕ → Choice) → Bool → DeleteTrace
  | [], _, _ => ⟨false, [], [], []⟩
  | g :: rest, ch, dryRun =>
    let tail := delete_duplicates rest (fun m => ch (m + 1)) dryRun
    match ch 0 with
    | .skipAll => tail
    | .badInput =>
      ⟨tail.anyDeleted, tail.removed, tail.wouldRemove,
        "Invalid input; skipping" :: tail.invalidReports⟩
    | .keepNum k =>
      let ki := k - 1
      if 0 ≤ ki ∧ ki < (g.length : ℤ) then
        if dryRun then
          ⟨tail.anyDeleted, tail.removed, othersOf g ki ++ tail.wouldRemove,
            tail.invalidReports⟩
        else
          ⟨decide (0 < (othersOf g ki).length) || tail.anyDeleted,
            othersOf g ki ++ tail.removed, tail.wouldRemove, tail.invalidReports⟩
      else
        ⟨tail.anyDeleted, tail.removed, tail.wouldRemove,
          "Invalid choice; skipping" :: tail.invalidReports⟩

/- Per-group views of the same loop body, for stating C8. -/
def groupRemoved (g : List String) (c : Choice) (dryRun : Bool) : List String :=
  match c with
  | .keepNum k =>
    if 0 ≤ k - 1 ∧ k - 1 < (g.length : ℤ) then
      if dryRun then [] else othersOf g (k - 1)
    else []
  | _ => []

def groupWould (g : List String) (c : Choice) (dryRun : Bool) : List String :=
  match c with
  | .keepNum k =>
    if 0 ≤ k - 1 ∧ k - 1 < (g.length : ℤ) then
      if dryRun then othersOf g (k - 1) else []
    else []
  | _ => []

/- The invalid-answer report one group's prompt produces (finder.py lines
   164-167): printed whether or not dry_run is set, never for 'skip' or a
   valid index. -/
def groupInvalid (g : List String) (c : Choice) : List String :=
  match c with
  | .skipAll => []
  | .badInput => ["Invalid input; skipping"]
  | .keepNum k =>
    if 0 ≤ k - 1 ∧ k - 1 < (g.length : ℤ) then [] else ["Invalid choice; skipping"]

/- The whole deletion run decomposes into the per-group pieces: processing
   always continues to the next group, whatever a single prompt answered. -/
lemma delete_decomp :
    ∀ (gs : List (List String)) (ch : ℕ → Choice) (dryRun : Bool),
      (delete_duplicates gs ch dryRun).removed
          = (List.range gs.length).flatMap
              (fun m => groupRemoved (gs.getD m []) (ch m) dryRun) ∧
        (delete_duplicates gs ch dryRun).wouldRemove
          = (List.range gs.length).flatMap
              (fun m => groupWould (gs.getD m []) (ch m) dryRun) ∧
        (delete_duplicates gs ch dryRun).invalidReports
          = (List.range gs.length).flatMap
              (fun m => groupInvalid (gs.getD m []) (ch m)) := by
  intro gs
  induction gs with
  | nil => intro ch dryRun; exact ⟨rfl, rfl, rfl⟩
  | cons g rest ih =>
    intro ch dryRun
    obtain ⟨ihr, ihw, ihv⟩ := ih (fun m => ch (m + 1)) dryRun
    have hrange : List.range (g :: rest).length
        = 0 :: (List.range rest.length).map (fun m => m + 1) := by
      rw [List.length_cons, List.range_succ_eq_map]
    have hflatr : (List.range (g :: rest).length).flatMap
        (fun m => groupRemoved ((g :: rest).getD m []) (ch m) dryRun)
        = groupRemoved g (ch 0) dryRun ++
            (List.range rest.length).flatMap
              (fun m => groupRemoved (rest.getD m []) (ch (m + 1)) dryRun) := by
      rw [hrange, List.flatMap_cons, List.flatMap_map]
      rfl
    have hflatw : (List.range (g :: rest).length).flatMap
        (fun m => groupWould ((g :: rest).getD m []) (ch m) dryRun)
        = groupWould g (ch 0) dryRun ++
            (List.range rest.length).flatMap
              (fun m => groupWould (rest.getD m []) (ch (m + 1)) dryRun) := by
      rw [hrange, List.flatMap_cons, List.flatMap_map]
      rfl
    have hflatv : (List.range (g :: rest).length).flatMap
        (fun m => groupInvalid ((g :: rest).getD m []) (ch m))
        = groupInvalid g (ch 0) ++
            (List.range rest.length).flatMap
              (fun m => groupInvalid (rest.getD m []) (ch (m + 1))) := by
      rw [hrange, List.flatMap_cons, List.flatMap_map]
      rfl
    rw [hflatr, hflatw, hflatv, ← ihr, ← ihw, ← ihv]
    cases hc : ch 0 with
    | skipAll =>
      simp [delete_duplicates, hc, groupRemoved, groupWould, groupInvalid]
    | badInput =>
      simp [delete_duplicates, hc, groupRemoved, groupWould, groupInvalid]
    | keepNum k =>
      by_cases hv : 0 ≤ k - 1 ∧ k - 1 < (g.length : ℤ)
      · have h1 : 1 ≤ k := by omega
        have h2 : k - 1 < (g.length : ℤ) := hv.2
        cases dryRun with
        | true =>
          simp [delete_duplicates, hc, groupRemoved, groupWould, groupInvalid, h1, h2]
        | false =>
          simp [delete_duplicates, hc, groupRemoved, groupWould, groupInvalid, h1, h2]
      · have hnv : ¬(1 ≤ k ∧ k - 1 < (g.length : ℤ)) := by omega
        simp [delete_duplicates, hc, groupRemoved, groupWould, groupInvalid, hnv]

/- The returned flag is set exactly when some os.remove happened; in
   particular a dry run always returns False (deleted_count stays 0). -/
lemma delete_flag :
    ∀ (gs : List (List String)) (ch : ℕ → Choice) (dryRun : Bool),
      ((delete_duplicates gs ch dryRun).anyDeleted = true ↔
        (delete_duplicates gs ch dryRun).removed ≠ []) ∧
        (dryRun = true → (delete_duplicates gs ch dryRun).anyDeleted = false ∧
          (delete_duplicates gs ch dryRun).removed = []) := by
  intro gs
  induction gs with
  | nil =>
    intro ch dryRun
    refine ⟨?_, fun _ => ⟨rfl, rfl⟩⟩
    simp [delete_duplicates]
  | cons g rest ih =>
    intro ch dryRun
    obtain ⟨ihf, ihd⟩ := ih (fun m => ch (m + 1)) dryRun
    cases hc : ch 0 with
    | skipAll =>
      have hstep : delete_duplicates (g :: rest) ch dryRun
          = delete_duplicates rest (fun m => ch (m + 1)) dryRun := by
        simp [delete_duplicates, hc]
      rw [hstep]
      exact ⟨ihf, ihd⟩
    | badInput =>
      have hstep : delete_duplicates (g :: rest) ch dryRun
          = ⟨(delete_duplicates rest (fun m => ch (m + 1)) dryRun).anyDeleted,
              (delete_duplicates rest (fun m => ch (m + 1)) dryRun).removed,
              (delete_duplicates rest (fun m => ch (m + 1)) dryRun).wouldRemove,
              "Invalid input; skipping" ::
                (delete_duplicates rest (fun m => ch (m + 1)) dryRun).invalidReports⟩ := by
        simp [delete_duplicates, hc]
      rw [hstep]
      exact ⟨ihf, ihd⟩
    | keepNum k =>
      by_cases hv : 0 ≤ k - 1 ∧ k - 1 < (g.length : ℤ)
      · have h1 : 1 ≤ k := by omega
        have h2 : k - 1 < (g.length : ℤ) := hv.2
        cases dryRun with
        | true =>
          have hstep : delete_duplicates (g :: rest) ch true
              = ⟨(delete_duplicates rest (fun m => ch (m + 1)) true).anyDeleted,
                  (delete_duplicates rest (fun m => ch (m + 1)) true).removed,
                  othersOf g (k - 1) ++
                    (delete_duplicates rest (fun m => ch (m + 1)) true).wouldRemove,
                  (delete_duplicates rest (fun m => ch (m + 1)) true).invalidReports⟩ := by
            simp [delete_duplicates, hc, h1, h2]
          rw [hstep]
          exact ⟨ihf, fun _ => ihd rfl⟩
        | false =>
          have hstep : delete_duplicates (g :: rest) ch false
              = ⟨decide (0 < (othersOf g (k - 1)).length) ||
                    (delete_duplicates rest (fun m => ch (m + 1)) false).anyDeleted,
                  othersOf g (k - 1) ++
                    (delete_duplicates rest (fun m => ch (m + 1)) false).removed,
                  (delete_duplicates rest (fun m => ch (m + 1)) false).wouldRemove,
                  (delete_duplicates rest (fun m => ch (m + 1)) false).invalidReports⟩ := by
            simp [delete_duplicates, hc, h1, h2]
          rw [hstep]
          refine ⟨?_, fun hd => absurd hd (by simp)⟩
          constructor
          · intro hflag
            rcases Bool.or_eq_true_iff.mp hflag with hfst | hsnd
            · rw [decide_eq_true_eq] at hfst
              intro hemp
              rcases List.append_eq_nil.mp hemp with ⟨hh1, _⟩
              rw [hh1] at hfst
              exact absurd hfst (by simp)
            · intro hemp
              rcases List.append_eq_nil.mp hemp with ⟨_, hh2⟩
              exact (ihf.mp hsnd) hh2
          · intro hne
            by_cases ho : othersOf g (k - 1) = []
            · rw [ho, List.nil_append] at hne
              rw [ihf.mpr hne, Bool.or_true]
            · have hlen : 0 < (othersOf g (k - 1)).length := List.length_pos.mpr ho
              rw [decide_eq_true hlen, Bool.true_or]
      · have hnv : ¬(1 ≤ k ∧ k - 1 < (g.length : ℤ)) := by omega
        have hstep : delete_duplicates (g :: rest) ch dryRun
            = ⟨(delete_duplicates rest (fun m => ch (m + 1)) dryRun).anyDeleted,
                (delete_duplicates rest (fun m => ch (m + 1)) dryRun).removed,
                (delete_duplicates rest (fun m => ch (m + 1)) dryRun).wouldRemove,
                "Invalid choice; skipping" ::
                  (delete_duplicates rest (fun m => ch (m + 1)) dryRun).invalidReports⟩ := by
          simp [delete_duplicates, hc, hnv]
        rw [hstep]
        exact ⟨ihf, ihd⟩

/- Membership in the removal list: exactly the members at positions other
   than the kept index. -/
lemma othersAux_mem (ki : ℤ) :
    ∀ (g : List String) (idx : ℕ) (p : String),
      p ∈ othersAux ki g idx ↔
        ∃ m : ℕ, ∃ hm : m < g.length, ((idx + m : ℕ) : ℤ) ≠ ki ∧ g.get ⟨m, hm⟩ = p := by
  intro g
  induction g with
  | nil =>
    intro idx p
    simp [othersAux]
  | cons q rest ih =>
    intro idx p
    by_cases hski : (idx : ℤ) ≠ ki
    · have hstep : othersAux ki (q :: rest) idx = q :: othersAux ki rest (idx + 1) := by
        simp [othersAux, hski]
      rw [hstep]
      constructor
      · intro hp
        rcases List.mem_cons.mp hp with he | hm
        · exact ⟨0, by simp, by simpa using hski, he.symm⟩
        · obtain ⟨m, hm2, hne, hg⟩ := (ih (idx + 1) p).mp hm
          refine ⟨m + 1, by simpa using hm2, ?_, hg⟩
          intro hcon
          apply hne
          rw [← hcon]
          push_cast
          ring
      · rintro ⟨m, hm, hne, hg⟩
        cases m with
        | zero =>
          rw [← hg]
          exact List.mem_cons_self _ _
        | succ m2 =>
          have hm3 : m2 < rest.length := by
            simp only [List.length_cons] at hm
            omega
          refine List.mem_cons_of_mem _ ((ih (idx + 1) p).mpr ⟨m2, hm3, ?_, ?_⟩)
          · intro hcon
            apply hne
            rw [← hcon]
            push_cast
            ring
          · exact hg
    · rw [not_not] at hski
      have hstep : othersAux ki (q :: rest) idx = othersAux ki rest (idx + 1) := by
        simp [othersAux, hski]
      rw [hstep, ih (idx + 1) p]
      constructor
      · rintro ⟨m, hm, hne, hg⟩
        refine ⟨m + 1, by simpa using hm, ?_, hg⟩
        intro hcon
        apply hne
        rw [← hcon]
        push_cast
        ring
      · rintro ⟨m, hm, hne, hg⟩
        cases m with
        | zero =>
          exfalso
          apply hne
          simpa using hski
        | succ m2 =>
          have hm3 : m2 < rest.length := by
            simp only [List.length_cons] at hm
            omega
          refine ⟨m2, hm3, ?_, ?_⟩
          · intro hcon
            apply hne
            rw [← hcon]
            push_cast
            ring
          · exact hg

lemma othersOf_mem (g : List String) (ki : ℤ) (p : String) :
    p ∈ othersOf g ki ↔ ∃ m : ℕ, ∃ hm : m < g.length, (m : ℤ) ≠ ki ∧ g.get ⟨m, hm⟩ = p := by
  rw [othersOf, othersAux_mem]
  constructor
  · rintro ⟨m, hm, hne, hg⟩
    exact ⟨m, hm, by simpa using hne, hg⟩
  · rintro ⟨m, hm, hne, hg⟩
    exact ⟨m, hm, by simpa using hne, hg⟩

/- The kept file is never among the removals of its own group (for a group
   without duplicated paths, as scan groups are). -/
lemma kept_not_mem_othersOf (g : List String) (hnd : g.Nodup) (m : ℕ) (hm : m < g.length) :
    g.get ⟨m, hm⟩ ∉ othersOf g (m : ℤ) := by
  intro hmem
  obtain ⟨m2, hm2, hne, hg⟩ := (othersOf_mem g (m : ℤ) _).mp hmem
  have : (⟨m2, hm2⟩ : Fin g.length) = ⟨m, hm⟩ := hnd.get_inj_iff.mp hg
  apply hne
  have := congrArg Fin.val this
  simp only at this
  rw [this]

/- ### Read traces (claim C9) -/

lemma exactReadTrace_sublist (files : List (String × Except FsError Digest)) :
    List.Sublist (exactReadTrace files) (files.map Prod.fst) := by
  induction files with
  | nil => simp [exactReadTrace]
  | cons f rest ih =>
    obtain ⟨p, r⟩ := f
    cases r with
    | ok d =>
      have hstep : exactReadTrace ((p, Except.ok d) :: rest) = p :: exactReadTrace rest := rfl
      rw [hstep, List.map_cons]
      exact ih.cons₂ p
    | error e =>
      by_cases hce : isCaught e = true
      · have hstep : exactReadTrace ((p, Except.error e) :: rest)
            = p :: exactReadTrace rest := by
          simp [exactReadTrace, hce]
        rw [hstep, List.map_cons]
        exact ih.cons₂ p
      · have hstep : exactReadTrace ((p, Except.error e) :: rest) = [p] := by
          simp [exactReadTrace, hce]
        rw [hstep, List.map_cons]
        exact (List.nil_sublist _).cons₂ p

lemma validEntries_fst_sublist (images : List (String × Option FP)) :
    List.Sublist ((validEntries images).map Prod.fst) (images.map Prod.fst) := by
  induction images with
  | nil => simp [validEntries]
  | cons e rest ih =>
    obtain ⟨p, o⟩ := e
    cases o with
    | some h =>
      have hstep : validEntries ((p, some h) :: rest) = (p, h) :: validEntries rest := rfl
      rw [hstep, List.map_cons, List.map_cons]
      exact ih.cons₂ p
    | none =>
      have hstep : validEntries ((p, none) :: rest) = validEntries rest := rfl
      rw [hstep, List.map_cons]
      exact ih.cons p

/- Each path occurs at most once in the concatenation of pairwise-disjoint
   groups without inner duplicates. -/
lemma count_flatMap_le_one (gs : List (List String))
    (hnd : ∀ g ∈ gs, g.Nodup)
    (hdisj : gs.Pairwise (fun g1 g2 => ∀ p, p ∈ g1 → p ∉ g2)) (s : String) :
    (gs.flatMap (fun g => g)).count s ≤ 1 := by
  induction gs with
  | nil => simp
  | cons g rest ih =>
    rw [List.flatMap_cons, List.count_append]
    rcases List.pairwise_cons.mp hdisj with ⟨hhead, htail⟩
    by_cases hs : s ∈ g
    · have hrest : (rest.flatMap (fun g => g)).count s = 0 := by
        rw [List.count_eq_zero]
        intro hmem
        rcases List.mem_flatMap.mp hmem with ⟨g2, hg2, hsg2⟩
        exact hhead g2 hg2 s hs hsg2
      have hg1 : g.count s ≤ 1 :=
        List.nodup_iff_count_le_one.mp (hnd g (List.mem_cons_self _ _)) s
      omega
    · have hg0 : g.count s = 0 := List.count_eq_zero.mpr hs
      have := ih (fun g2 hg2 => hnd g2 (List.mem_cons_of_mem _ hg2)) htail
      omega

/- Invariants of the emitted fuzzy groups, lifted through the guard clauses
   of find_duplicates. -/
lemma find_duplicates_fuzzy_invariants (images : List (String × Option FP)) (t : ℚ)
    (hnd : ((validEntries images).map Prod.fst).Nodup) :
    (∀ g ∈ find_duplicates_fuzzy images t, g.Nodup ∧ 2 ≤ g.length) ∧
      (find_duplicates_fuzzy images t).Pairwise (fun g1 g2 => ∀ p, p ∈ g1 → p ∉ g2) := by
  rw [find_duplicates_fuzzy]
  by_cases h1 : images.length < 2
  · rw [if_pos h1]
    exact ⟨fun g hg => absurd hg (List.not_mem_nil g), List.Pairwise.nil⟩
  · rw [if_neg h1]
    by_cases h2 : (validEntries images).length < 2
    · rw [if_pos h2]
      exact ⟨fun g hg => absurd hg (List.not_mem_nil g), List.Pairwise.nil⟩
    · rw [if_neg h2]
      exact fuzzyCore_invariants (validEntries images) _ hnd

/- Paths of the successful entries, in walk order, are a subsequence of the
   walked paths. -/
lemma okEntries_snd_sublist (files : List (String × Except FsError Digest)) :
    List.Sublist ((okEntries files).map Prod.snd) (files.map Prod.fst) := by
  induction files with
  | nil => simp [okEntries]
  | cons f rest ih =>
    obtain ⟨p, r⟩ := f
    cases r with
    | ok d =>
      have hstep : okEntries ((p, Except.ok d) :: rest) = (d, p) :: okEntries rest := rfl
      rw [hstep, List.map_cons, List.map_cons]
      exact ih.cons₂ p
    | error e =>
      have hstep : okEntries ((p, Except.error e) :: rest) = okEntries rest := rfl
      rw [hstep, List.map_cons]
      exact ih.cons p

/- With distinct walked paths, a path appears with a single outcome. -/
lemma files_entry_unique (files : List (String × Except FsError Digest))
    (hnd : (files.map Prod.fst).Nodup) (p : String) (r1 r2 : Except FsError Digest)
    (h1 : (p, r1) ∈ files) (h2 : (p, r2) ∈ files) : r1 = r2 := by
  have he : (p, r1) = (p, r2) := List.inj_on_of_nodup_map hnd h1 h2 rfl
  rw [Prod.mk.injEq] at he
  exact he.2

/- Dropping the failed reads does not change the successful entries. -/
lemma okEntries_filter_isOk (files : List (String × Except FsError Digest)) :
    okEntries (files.filter (fun f => f.2.isOk)) = okEntries files := by
  induction files with
  | nil => rfl
  | cons f rest ih =>
    obtain ⟨p, r⟩ := f
    cases r with
    | ok d =>
      have hstep : ((p, Except.ok d) :: rest).filter (fun f => f.2.isOk)
          = (p, Except.ok d) :: rest.filter (fun f => f.2.isOk) := rfl
      rw [hstep]
      have h2 : okEntries ((p, Except.ok d) :: rest.filter (fun f => f.2.isOk))
          = (d, p) :: okEntries (rest.filter (fun f => f.2.isOk)) := rfl
      rw [h2, ih]
      rfl
    | error e =>
      have hstep : ((p, Except.error e) :: rest).filter (fun f => f.2.isOk)
          = rest.filter (fun f => f.2.isOk) := rfl
      rw [hstep, ih]
      rfl

/- When every failure is caught, stderr carries one (path, cause) line per
   failed file, in walk order. -/
lemma exactStderr_all_caught (files : List (String × Except FsError Digest))
    (hc : ∀ p e, (p, Except.error e) ∈ files → isCaught e = true) :
    exactStderr files
      = files.filterMap (fun f =>
          match f.2 with
          | Except.error e => some (f.1, e)
          | Except.ok _ => none) := by
  induction files with
  | nil => rfl
  | cons f rest ih =>
    obtain ⟨p, r⟩ := f
    have hrest : ∀ p e, (p, Except.error e) ∈ rest → isCaught e = true :=
      fun q e hq => hc q e (List.mem_cons_of_mem _ hq)
    cases r with
    | ok d =>
      have hstep : exactStderr ((p, Except.ok d) :: rest) = exactStderr rest := rfl
      rw [hstep, ih hrest]
      rfl
    | error e =>
      have he : isCaught e = true := hc p e (List.mem_cons_self _ _)
      have hstep : exactStderr ((p, Except.error e) :: rest)
          = (p, e) :: exactStderr rest := by
        simp [exactStderr, he]
      rw [hstep, ih hrest]
      rfl

/- The C3 invariants for exact mode. -/
lemma exact_invariants (files : List (String × Except FsError Digest))
    (gs : List (List String)) (hnd : (files.map Prod.fst).Nodup)
    (hok : find_duplicates_exact files = Except.ok gs) :
    (∀ g ∈ gs, g.Nodup ∧ 2 ≤ g.length) ∧
      gs.Pairwise (fun g1 g2 => ∀ p, p ∈ g1 → p ∉ g2) := by
  rw [find_duplicates_exact] at hok
  cases hloop : exactLoop files [] with
  | error e =>
    rw [hloop] at hok
    exact absurd hok (by simp [Except.map])
  | ok dict =>
    rw [hloop] at hok
    simp only [Except.map, Except.ok.injEq] at hok
    have hdict : dict = mmOf (okEntries files) := (exactLoop_ok_inv files [] dict hloop).1
    subst hdict
    subst hok
    have hsndnd : ((okEntries files).map Prod.snd).Nodup :=
      hnd.sublist (okEntries_snd_sublist files)
    have hdet : ∀ (a : String) (k1 k2 : Digest),
        (k1, a) ∈ okEntries files → (k2, a) ∈ okEntries files → k1 = k2 := by
      intro a k1 k2 h1 h2
      have he : (k1, a) = (k2, a) := List.inj_on_of_nodup_map hsndnd h1 h2 rfl
      rw [Prod.mk.injEq] at he
      exact he.1
    constructor
    · intro g hg
      rcases List.mem_filter.mp hg with ⟨hg2, hlen⟩
      rcases List.mem_map.mp hg2 with ⟨⟨d, vs⟩, hmem, hsnd2⟩
      simp only at hsnd2
      subst hsnd2
      rw [decide_eq_true_eq] at hlen
      exact ⟨mmOf_bucket_nodup _ hsndnd d vs hmem, hlen⟩
    · have hpair := mmOf_pairwise_disjoint _ hdet
      have hmap : ((mmOf (okEntries files)).map Prod.snd).Pairwise
          (fun g1 g2 => ∀ p, p ∈ g1 → p ∉ g2) := List.pairwise_map.mpr hpair
      exact hmap.sublist (List.filter_sublist _)

/- ### Concrete fixtures for the closed instances below -/

def fpZero : FP := List.replicate 64 false

def fpHalf : FP := List.replicate 32 true ++ List.replicate 32 false

def imgsDup : List (String × Option FP) := [("a", some fpZero), ("b", some fpZero)]

def imgsFar : List (String × Option FP) := [("a", some fpZero), ("b", some fpHalf)]

def filesMixed : List (String × Except FsError Digest) :=
  [("a", Except.error FsError.permDenied), ("b", Except.ok "d1"), ("c", Except.ok "d1")]

def filesAbort : List (String × Except FsError Digest) :=
  [("a", Except.error FsError.otherErr), ("b", Except.ok "d1"), ("c", Except.ok "d1")]

def filesOk2 : List (String × Except FsError Digest) :=
  [("b", Except.ok "d1"), ("c", Except.ok "d1")]

/- ### The claims -/

/-- C1: In fuzzy mode, for every similarity threshold t in [0, 1], the valid
images are partitioned so that any two distinct valid images whose
fingerprints have Hamming distance at most maxDistance are in the same
emitted cluster, where maxDistance = floor((1 - t) * fingerprintBitLength),
and cluster membership is exactly the transitive (equivalence) closure of
that pairwise relation, as computed by union-find over all unordered
pairs. -/
theorem C1_fuzzy_clustering (images : List (String × Option FP)) (t : ℚ)
    (ht0 : 0 ≤ t) (ht1 : t ≤ 1)
    (hnd : ((validEntries images).map Prod.fst).Nodup)
    (i j : Fin (validEntries images).length) (hij : i ≠ j) :
    (∃ g, g ∈ find_duplicates_fuzzy images t ∧
        vpOf (validEntries images) i ∈ g ∧ vpOf (validEntries images) j ∈ g) ↔
      EqClos (fun a b =>
        (hammingDist (hsOf (validEntries images) a) (hsOf (validEntries images) b) : ℤ) ≤
          maxDistOf t (fuzzyHashSize (validEntries images))) i j := by
  have hlen2 : 2 ≤ (validEntries images).length := by
    by_contra hcon
    push_neg at hcon
    have hi := i.isLt
    have hj := j.isLt
    apply hij
    apply Fin.ext
    omega
  have hlenle : (validEntries images).length ≤ images.length := by
    have hle := (validEntries_fst_sublist images).length_le
    rw [List.length_map, List.length_map] at hle
    exact hle
  rw [find_duplicates_fuzzy, if_neg (by omega), if_neg (by omega)]
  exact fuzzyCore_char (validEntries images) _ hnd i j hij

/-- C1 witness: two identical images at threshold 1 land in one emitted
group. -/
theorem C1_witness :
    ∃ g, g ∈ find_duplicates_fuzzy imgsDup 1 ∧
      vpOf (validEntries imgsDup) ⟨0, by decide⟩ ∈ g ∧
      vpOf (validEntries imgsDup) ⟨1, by decide⟩ ∈ g := by
  refine (C1_fuzzy_clustering imgsDup 1 zero_le_one (le_refl 1) (by decide)
    ⟨0, by decide⟩ ⟨1, by decide⟩ (by decide)).mpr ?_
  refine EqClos.rel ?_
  have hmax : maxDistOf 1 (fuzzyHashSize (validEntries imgsDup)) = 0 := by
    simp [maxDistOf]
  rw [hmax]
  decide

/-- C2: In exact mode, for a scan that completed (distinct walked paths, no
uncaught error), any two successfully hashed files with equal digest appear
together in a returned group, files with different digests never share a
group, every digest bucket with at least 2 members is emitted, and buckets
of size 1 are discarded: neither the bucket nor its member reaches any
group. -/
theorem C2_exact_grouping (files : List (String × Except FsError Digest))
    (gs : List (List String))
    (hnd : (files.map Prod.fst).Nodup)
    (hok : find_duplicates_exact files = Except.ok gs) :
    (∀ p q dp dq, (p, Except.ok dp) ∈ files → (q, Except.ok dq) ∈ files →
        p ≠ q → dp = dq → ∃ g, g ∈ gs ∧ p ∈ g ∧ q ∈ g) ∧
      (∀ p q dp dq, (p, Except.ok dp) ∈ files → (q, Except.ok dq) ∈ files →
        dp ≠ dq → ∀ g, g ∈ gs → ¬(p ∈ g ∧ q ∈ g)) ∧
      (∀ d vs, (d, vs) ∈ mmOf (okEntries files) →
        (2 ≤ vs.length → vs ∈ gs) ∧
          (vs.length < 2 → vs ∉ gs ∧ ∀ p ∈ vs, ∀ g ∈ gs, p ∉ g)) := by
  rw [find_duplicates_exact] at hok
  cases hloop : exactLoop files [] with
  | error e =>
    rw [hloop] at hok
    exact absurd hok (by simp [Except.map])
  | ok dict =>
    rw [hloop] at hok
    simp only [Except.map, Except.ok.injEq] at hok
    have hdict : dict = mmOf (okEntries files) := (exactLoop_ok_inv files [] dict hloop).1
    subst hdict
    subst hok
    have hmemval : ∀ (p : String) (d : Digest) (vs : List String),
        (d, vs) ∈ mmOf (okEntries files) → p ∈ vs → (p, Except.ok d) ∈ files := by
      intro p d vs hm hp
      exact (okEntries_mem files d p).mp (mmOf_val_mem _ d vs p hm hp)
    have hgdig : ∀ g, g ∈ (mmOf (okEntries files)).map Prod.snd →
        ∃ d, (d, g) ∈ mmOf (okEntries files) := by
      intro g hg
      rcases List.mem_map.mp hg with ⟨⟨d, vs⟩, hm, hs⟩
      simp only at hs
      subst hs
      exact ⟨d, hm⟩
    refine ⟨?_, ?_, ?_⟩
    · intro p q dp dq hp hq hpq hdd
      subst hdd
      obtain ⟨vs, hvs, hpvs⟩ := mmOf_mem_of_entry (okEntries files) dp p
        ((okEntries_mem files dp p).mpr hp)
      obtain ⟨vs2, hvs2, hqvs⟩ := mmOf_mem_of_entry (okEntries files) dp q
        ((okEntries_mem files dp q).mpr hq)
      have heq : vs2 = vs := by
        have h1 := (mm_mem_iff_get _ (mmKeys_nodup_mmOf _) dp vs).mp hvs
        have h2 := (mm_mem_iff_get _ (mmKeys_nodup_mmOf _) dp vs2).mp hvs2
        rw [h1] at h2
        exact (Option.some.injEq _ _).mp h2.symm
      rw [heq] at hqvs
      refine ⟨vs, ?_, hpvs, hqvs⟩
      refine List.mem_filter.mpr ⟨List.mem_map.mpr ⟨(dp, vs), hvs, rfl⟩, ?_⟩
      rw [decide_eq_true_eq]
      exact one_lt_length_of_mem_ne hpvs hqvs hpq
    · intro p q dp dq hp hq hdd g hg hpq
      rcases List.mem_filter.mp hg with ⟨hg2, _⟩
      obtain ⟨d, hdg⟩ := hgdig g hg2
      have h1 : (p, Except.ok d) ∈ files := hmemval p d g hdg hpq.1
      have h2 : (q, Except.ok d) ∈ files := hmemval q d g hdg hpq.2
      have e1 : (Except.ok dp : Except FsError Digest) = Except.ok d :=
        files_entry_unique files hnd p _ _ hp h1
      have e2 : (Except.ok dq : Except FsError Digest) = Except.ok d :=
        files_entry_unique files hnd q _ _ hq h2
      apply hdd
      rw [Except.ok.injEq] at e1 e2
      rw [e1, e2]
    · intro d vs hm
      constructor
      · intro hlen
        refine List.mem_filter.mpr ⟨List.mem_map.mpr ⟨(d, vs), hm, rfl⟩, ?_⟩
        rw [decide_eq_true_eq]
        omega
      · intro hlen
        constructor
        · intro hvs
          rcases List.mem_filter.mp hvs with ⟨_, h2⟩
          rw [decide_eq_true_eq] at h2
          omega
        · intro p hp g hg hpg
          rcases List.mem_filter.mp hg with ⟨hg2, hg3⟩
          obtain ⟨d2, hdg⟩ := hgdig g hg2
          have h1 : (p, Except.ok d2) ∈ files := hmemval p d2 g hdg hpg
          have h2 : (p, Except.ok d) ∈ files := hmemval p d vs hm hp
          have e1 : (Except.ok d2 : Except FsError Digest) = Except.ok d :=
            files_entry_unique files hnd p _ _ h1 h2
          rw [Except.ok.injEq] at e1
          subst e1
          have heq : g = vs := by
            have ha := (mm_mem_iff_get _ (mmKeys_nodup_mmOf _) d2 g).mp hdg
            have hb := (mm_mem_iff_get _ (mmKeys_nodup_mmOf _) d2 vs).mp hm
            rw [ha] at hb
            exact (Option.some.injEq _ _).mp hb
          rw [decide_eq_true_eq] at hg3
          rw [heq] at hg3
          omega

/-- C2 witness: two files with the same digest and a third scenario input:
the digest bucket of size 2 is emitted with both members. -/
theorem C2_witness :
    ∃ g, g ∈ [["b", "c"]] ∧ "b" ∈ g ∧ "c" ∈ g := by
  have h := C2_exact_grouping filesOk2 [["b", "c"]] (by decide) (by rfl)
  exact h.1 "b" "c" "d1" "d1" (by decide) (by decide) (by decide) rfl

/-- C3: For every scan in either mode, each returned group has no repeated
path and at least 2 members, and no path occurs in two different groups
(the group sequence is pairwise disjoint). -/
theorem C3_group_invariants :
    (∀ (files : List (String × Except FsError Digest)) (gs : List (List String)),
      (files.map Prod.fst).Nodup → find_duplicates_exact files = Except.ok gs →
      (∀ g ∈ gs, g.Nodup ∧ 2 ≤ g.length) ∧
        gs.Pairwise (fun g1 g2 => ∀ p, p ∈ g1 → p ∉ g2)) ∧
      (∀ (images : List (String × Option FP)) (t : ℚ),
        ((validEntries images).map Prod.fst).Nodup →
        (∀ g ∈ find_duplicates_fuzzy images t, g.Nodup ∧ 2 ≤ g.length) ∧
          (find_duplicates_fuzzy images t).Pairwise (fun g1 g2 => ∀ p, p ∈ g1 → p ∉ g2)) :=
  ⟨fun files gs hnd hok => exact_invariants files gs hnd hok,
    fun images t hnd => find_duplicates_fuzzy_invariants images t hnd⟩

/-- C3 witness: the invariants at a concrete exact scan and a concrete fuzzy
scan. -/
theorem C3_witness :
    (∀ g ∈ [["b", "c"]], g.Nodup ∧ 2 ≤ g.length) ∧
      (∀ g ∈ find_duplicates_fuzzy imgsDup 1, g.Nodup ∧ 2 ≤ g.length) := by
  constructor
  · exact (C3_group_invariants.1 filesOk2 [["b", "c"]] (by decide) (by rfl)).1
  · exact (C3_group_invariants.2 imgsDup 1 (by decide)).1

/-- C4: In the Threshold Advisor, when at least one strictly positive
pairwise distance exists, the suggested similarity equals
1 - (minNonZero + 3)/fingerprintBitLength rounded to 2 decimal places and
clamped to [0.70, 0.90] (hence it always lies within [0.70, 0.90]); when
every pairwise distance is 0, the suggestion is exactly 0.95. -/
theorem C4_advisor_suggestion (dists : List ℕ) :
    ((∃ d ∈ dists, 0 < d) →
      (∀ m, (dists.filter (fun d => decide (0 < d))).min? = some m →
        suggestedSim dists
          = max (70/100) (min (90/100) (pyRound2 (1 - ((m + 3 : ℕ) : ℚ) / 64)))) ∧
        70/100 ≤ suggestedSim dists ∧ suggestedSim dists ≤ 90/100) ∧
      ((∀ d ∈ dists, d = 0) → suggestedSim dists = 95/100) := by
  constructor
  · intro hex
    have hne : dists.filter (fun d => decide (0 < d)) ≠ [] := by
      obtain ⟨d, hd, hpos⟩ := hex
      intro hnil
      have hmem : d ∈ dists.filter (fun d => decide (0 < d)) :=
        List.mem_filter.mpr ⟨hd, by rw [decide_eq_true_eq]; exact hpos⟩
      rw [hnil] at hmem
      exact absurd hmem (List.not_mem_nil d)
    refine ⟨?_, ?_⟩
    · intro m hm
      unfold suggestedSim
      rw [hm]
    · cases hm : (dists.filter (fun d => decide (0 < d))).min? with
      | none => exact absurd (List.min?_eq_none_iff.mp hm) hne
      | some m =>
        have hval : suggestedSim dists
            = max (70/100) (min (90/100) (pyRound2 (1 - ((m + 3 : ℕ) : ℚ) / 64))) := by
          unfold suggestedSim
          rw [hm]
        rw [hval]
        constructor
        · exact le_max_left _ _
        · exact max_le (by norm_num) (min_le_left _ _)
  · intro hz
    have hnil : dists.filter (fun d => decide (0 < d)) = [] := by
      rw [List.filter_eq_nil_iff]
      intro d hd
      rw [decide_eq_true_eq]
      rw [hz d hd]
      omega
    unfold suggestedSim
    rw [hnil]
    rfl

/-- C4 witness: distances [5] give the clamped rounded value and stay within
the band; distances [0] give exactly 0.95. -/
theorem C4_witness :
    suggestedSim [5] = max (70/100) (min (90/100) (pyRound2 (1 - ((5 + 3 : ℕ) : ℚ) / 64))) ∧
      70/100 ≤ suggestedSim [5] ∧ suggestedSim [5] ≤ 90/100 ∧
      suggestedSim [0] = 95/100 := by
  have h5 := (C4_advisor_suggestion [5]).1 ⟨5, by decide, by decide⟩
  have h0 := (C4_advisor_suggestion [0]).2 (by decide)
  exact ⟨h5.1 5 (by decide), h5.2.1, h5.2.2, h0⟩

/-- C5 (code bug): the verbose histogram has no separate overflow counter:
the for-else branch increments counts[30], the same dict entry as the
"up to 30 bits" bucket, and the report prints counts[30] twice.  For the
single pair at distance 31 the eight reported counts are
[0,0,0,0,0,0,1,1], summing to 2, not to the pair total 1. -/
theorem C5_histogram_bug :
    histReported [31] = [0, 0, 0, 0, 0, 0, 1, 1] ∧
      (histReported [31]).sum = 2 ∧ ([31] : List ℕ).length = 1 := by
  refine ⟨by decide, by decide, rfl⟩

/-- C6 counterexample: with fewer than 2 valid images the fuzzy grouper
returns [], exactly the value a completed fuzzy scan with zero duplicates
returns (two valid far-apart images at threshold 1), so the insufficient
data outcome is not distinct from the zero-duplicates outcome. -/
theorem C6_counterexample :
    find_duplicates_fuzzy [] 1 = [] ∧
      (validEntries imgsFar).length = 2 ∧
      find_duplicates_fuzzy imgsFar 1 = [] ∧
      find_duplicates_fuzzy [] 1 = find_duplicates_fuzzy imgsFar 1 := by
  have h1 : find_duplicates_fuzzy ([] : List (String × Option FP)) 1 = [] := by
    rw [find_duplicates_fuzzy, if_pos (by decide)]
  have h2 : find_duplicates_fuzzy imgsFar 1 = [] := by
    rw [find_duplicates_fuzzy, if_neg (by decide), if_neg (by decide)]
    have hmax : maxDistOf 1 (fuzzyHashSize (validEntries imgsFar)) = 0 := by
      simp [maxDistOf]
    rw [hmax]
    decide
  exact ⟨h1, by decide, h2, by rw [h1, h2]⟩

/-- C6 (amended): when fewer than 2 valid images exist the fuzzy grouper
returns the empty group list without raising - the same value as a scan
finding zero duplicates, not a distinct result - while the Threshold
Advisor does produce defined error outcomes (message and exit code 1),
distinct by construction from any report, in both the too-few-candidates
and the too-few-valid-images cases. -/
theorem C6_amended :
    (∀ (images : List (String × Option FP)) (t : ℚ),
      (validEntries images).length < 2 → find_duplicates_fuzzy images t = []) ∧
      (∀ (images : List (String × Option FP)) (mi : ℕ),
        (cappedImages images mi).length < 2 →
        thresholdOutcome images mi = AdvisorOut.notEnough) ∧
      (∀ (images : List (String × Option FP)) (mi : ℕ),
        2 ≤ (cappedImages images mi).length →
        (validEntries (cappedImages images mi)).length < 2 →
        thresholdOutcome images mi = AdvisorOut.tooFewValid) ∧
      (∀ s : ℚ, AdvisorOut.notEnough ≠ AdvisorOut.report s ∧
        AdvisorOut.tooFewValid ≠ AdvisorOut.report s) := by
  refine ⟨?_, ?_, ?_, ?_⟩
  · intro images t h
    rw [find_duplicates_fuzzy]
    by_cases h1 : images.length < 2
    · rw [if_pos h1]
    · rw [if_neg h1, if_pos h]
  · intro images mi h
    unfold thresholdOutcome
    rw [if_pos h]
  · intro images mi h1 h2
    unfold thresholdOutcome
    rw [if_neg (by omega), if_pos h2]
  · intro s
    exact ⟨fun h => AdvisorOut.noConfusion h, fun h => AdvisorOut.noConfusion h⟩

/-- C6 witness: the three amended behaviors at concrete inputs. -/
theorem C6_witness :
    find_duplicates_fuzzy [("a", some fpZero)] 1 = [] ∧
      thresholdOutcome [] 0 = AdvisorOut.notEnough ∧
      thresholdOutcome [("a", some fpZero), ("b", none)] 0 = AdvisorOut.tooFewValid := by
  exact ⟨C6_amended.1 [("a", some fpZero)] 1 (by decide),
    C6_amended.2.1 [] 0 (by decide),
    C6_amended.2.2.1 [("a", some fpZero), ("b", none)] 0 (by decide) (by decide)⟩

/-- C7 counterexample: an I/O failure other than PermissionError or
FileNotFoundError is not caught by compute_hash, so it aborts the whole
exact scan instead of excluding only the failing file: with the failing
file dropped, the very same scan returns the group of the two remaining
files. -/
theorem C7_counterexample :
    find_duplicates_exact filesAbort = Except.error FsError.otherErr ∧
      find_duplicates_exact filesOk2 = Except.ok [["b", "c"]] ∧
      find_duplicates_exact filesAbort ≠ find_duplicates_exact filesOk2 := by
  refine ⟨rfl, rfl, by decide⟩

/-- C7 (amended): a PermissionError or FileNotFoundError while hashing makes
the Content Hasher report failure for that file only: the scan completes as
if the file were absent from the walk, the failure is printed to stderr
with path and cause, and (for distinct walked paths) the failing file is in
no group.  Any other I/O error is uncaught and aborts the scan. -/
theorem C7_amended :
    ∀ files : List (String × Except FsError Digest),
      (∀ p e, (p, Except.error e) ∈ files → isCaught e = true) →
      (find_duplicates_exact files
          = find_duplicates_exact (files.filter (fun f => f.2.isOk)) ∧
        (∃ gs, find_duplicates_exact files = Except.ok gs) ∧
        exactStderr files
          = files.filterMap (fun f =>
              match f.2 with
              | Except.error e => some (f.1, e)
              | Except.ok _ => none) ∧
        ((files.map Prod.fst).Nodup → ∀ p e, (p, Except.error e) ∈ files →
          ∀ gs, find_duplicates_exact files = Except.ok gs → ∀ g ∈ gs, p ∉ g)) := by
  intro files hc
  have hloop := exactLoop_ok files hc []
  have hfilterc : ∀ p e,
      (p, Except.error e) ∈ files.filter (fun f => f.2.isOk) → isCaught e = true := by
    intro p e hmem
    rcases List.mem_filter.mp hmem with ⟨_, hok⟩
    have hfalse : ((p, (Except.error e : Except FsError Digest)).2).isOk = false := rfl
    rw [hfalse] at hok
    exact absurd hok (by simp)
  have hloop2 := exactLoop_ok (files.filter (fun f => f.2.isOk)) hfilterc []
  refine ⟨?_, ?_, exactStderr_all_caught files hc, ?_⟩
  · rw [find_duplicates_exact, find_duplicates_exact, hloop, hloop2, okEntries_filter_isOk]
  · refine ⟨((mmFold (okEntries files) []).map Prod.snd).filter (fun g => 1 < g.length), ?_⟩
    rw [find_duplicates_exact, hloop]
    rfl
  · intro hnd p e hpe gs hok g hg hpg
    rw [find_duplicates_exact, hloop] at hok
    simp only [Except.map, Except.ok.injEq] at hok
    subst hok
    rcases List.mem_filter.mp hg with ⟨hg2, _⟩
    rcases List.mem_map.mp hg2 with ⟨⟨d, vs⟩, hm, hs⟩
    simp only at hs
    subst hs
    have h1 : (p, Except.ok d) ∈ files :=
      (okEntries_mem files d p).mp (mmOf_val_mem _ d vs p hm hpg)
    have hcontra := files_entry_unique files hnd p _ _ h1 hpe
    exact Except.noConfusion hcontra

/-- C7 witness: one file failing with PermissionError is skipped and logged;
the scan result equals the scan of the remaining files. -/
theorem C7_witness :
    find_duplicates_exact filesMixed
        = find_duplicates_exact (filesMixed.filter (fun f => f.2.isOk)) ∧
      exactStderr filesMixed = [("a", FsError.permDenied)] := by
  have hcaught : ∀ p e, (p, Except.error e) ∈ filesMixed → isCaught e = true := by
    intro p e hmem
    simp only [filesMixed, List.mem_cons, List.mem_singleton, Prod.mk.injEq,
      List.not_mem_nil, or_false] at hmem
    rcases hmem with h1 | h2 | h3
    · rw [Except.error.inj h1.2]
      rfl
    · exact absurd h2.2 (fun hcon => Except.noConfusion hcon)
    · exact absurd h3.2 (fun hcon => Except.noConfusion hcon)
  have h := C7_amended filesMixed hcaught
  refine ⟨h.1, ?_⟩
  rw [h.2.2.1]
  decide

/-- C8: For every group processed by the deletion operation (scan groups
have no repeated path): the run decomposes into independent per-group
pieces, so an invalid answer at one group leaves that group untouched and
processing continues; with a valid kept index the removals are exactly the
members at the other positions, the kept file is never among them, no
invalid-answer report is printed, and under dry-run nothing at all is
removed, the removals only being reported; an out-of-range index removes
nothing in the group and prints "Invalid choice; skipping", and a
non-numeric answer removes nothing and prints "Invalid input; skipping",
so neither is silently ignored. -/
theorem C8_deletion_safety :
    (∀ (gs : List (List String)) (ch : ℕ → Choice) (dr : Bool),
      (delete_duplicates gs ch dr).removed
          = (List.range gs.length).flatMap
              (fun m => groupRemoved (gs.getD m []) (ch m) dr) ∧
        (delete_duplicates gs ch dr).wouldRemove
          = (List.range gs.length).flatMap
              (fun m => groupWould (gs.getD m []) (ch m) dr) ∧
        (delete_duplicates gs ch dr).invalidReports
          = (List.range gs.length).flatMap
              (fun m => groupInvalid (gs.getD m []) (ch m))) ∧
      (∀ (g : List String) (k : ℤ), 0 ≤ k - 1 → k - 1 < (g.length : ℤ) →
        groupRemoved g (Choice.keepNum k) false = othersOf g (k - 1) ∧
          groupWould g (Choice.keepNum k) true = othersOf g (k - 1) ∧
          groupRemoved g (Choice.keepNum k) true = [] ∧
          groupInvalid g (Choice.keepNum k) = []) ∧
      (∀ (g : List String) (ki : ℤ) (p : String),
        p ∈ othersOf g ki ↔
          ∃ m : ℕ, ∃ hm : m < g.length, (m : ℤ) ≠ ki ∧ g.get ⟨m, hm⟩ = p) ∧
      (∀ g : List String, g.Nodup → ∀ (m : ℕ) (hm : m < g.length),
        g.get ⟨m, hm⟩ ∉ othersOf g (m : ℤ)) ∧
      (∀ (gs : List (List String)) (ch : ℕ → Choice),
        (delete_duplicates gs ch true).removed = []) ∧
      (∀ (g : List String) (k : ℤ) (dr : Bool),
        ¬(0 ≤ k - 1 ∧ k - 1 < (g.length : ℤ)) →
        groupRemoved g (Choice.keepNum k) dr = [] ∧
          groupWould g (Choice.keepNum k) dr = [] ∧
          groupInvalid g (Choice.keepNum k) = ["Invalid choice; skipping"]) ∧
      (∀ (g : List String) (dr : Bool),
        groupRemoved g Choice.skipAll dr = [] ∧ groupRemoved g Choice.badInput dr = [] ∧
          groupWould g Choice.skipAll dr = [] ∧ groupWould g Choice.badInput dr = [] ∧
          groupInvalid g Choice.skipAll = [] ∧
          groupInvalid g Choice.badInput = ["Invalid input; skipping"]) := by
  refine ⟨fun gs ch dr => delete_decomp gs ch dr, ?_, othersOf_mem, kept_not_mem_othersOf,
    ?_, ?_, ?_⟩
  · intro g k h1 h2
    have h1b : 1 ≤ k := by omega
    refine ⟨?_, ?_, ?_, ?_⟩ <;> simp [groupRemoved, groupWould, groupInvalid, h1b, h2]
  · intro gs ch
    exact ((delete_flag gs ch true).2 rfl).2
  · intro g k dr hnv
    have hnv2 : ¬(1 ≤ k ∧ k - 1 < (g.length : ℤ)) := by omega
    refine ⟨?_, ?_, ?_⟩ <;> simp [groupRemoved, groupWould, groupInvalid, hnv2]
  · intro g dr
    exact ⟨rfl, rfl, rfl, rfl, rfl, rfl⟩

/-- C8 witness: keep index 2 in a 3-member group removes exactly the other
two; the kept file is not among the removals; a dry run removes nothing;
keep index 5 in that group removes nothing and prints the invalid-choice
report; a non-numeric answer removes nothing and prints the invalid-input
report, and in both cases the run continues to the next group. -/
theorem C8_witness :
    groupRemoved ["a", "b", "c"] (Choice.keepNum 2) false = ["a", "c"] ∧
      (["a", "b", "c"].get ⟨1, by decide⟩ ∉ othersOf ["a", "b", "c"] ((1 : ℕ) : ℤ)) ∧
      (delete_duplicates [["a", "b", "c"]] (fun _ => Choice.keepNum 2) true).removed = [] ∧
      delete_duplicates [["a", "b", "c"], ["d", "e"]]
          (fun m => if m = 0 then Choice.keepNum 5 else Choice.keepNum 1) false
        = ⟨true, ["e"], [], ["Invalid choice; skipping"]⟩ ∧
      delete_duplicates [["a", "b", "c"], ["d", "e"]]
          (fun m => if m = 0 then Choice.badInput else Choice.keepNum 1) false
        = ⟨true, ["e"], [], ["Invalid input; skipping"]⟩ := by
  obtain ⟨hdec, hvalid, hmem, hkept, hdry, hinv, hsb⟩ := C8_deletion_safety
  refine ⟨?_, ?_, hdry [["a", "b", "c"]] (fun _ => Choice.keepNum 2), by decide, by decide⟩
  · rw [(hvalid ["a", "b", "c"] 2 (by decide) (by decide)).1]
    decide
  · exact hkept ["a", "b", "c"] (by decide) 1 (by decide)

/-- C9 counterexample: in fuzzy mode with two identical images (2 candidates,
hence at most 20) the debug block reopens both members of the 2-element
group, so the file "a" is opened twice in one scan, refuting "every file is
read at most once". -/
theorem C9_counterexample : (fuzzyReadTrace imgsDup 1).count "a" = 2 := by
  have hfind : find_duplicates_fuzzy imgsDup 1 = [["a", "b"]] := by
    rw [find_duplicates_fuzzy, if_neg (by decide), if_neg (by decide)]
    have hmax : maxDistOf 1 (fuzzyHashSize (validEntries imgsDup)) = 0 := by
      simp [maxDistOf]
    rw [hmax]
    decide
  unfold fuzzyReadTrace
  rw [hfind]
  decide

/-- C9 (amended): in exact mode every file is opened at most once per scan;
in fuzzy mode every candidate is opened once for hashing and, only when at
most 20 candidates exist and duplicates were found, the members of
2-element groups are opened a second time for the debug report - so at most
twice, and at most once when more than 20 candidates exist. -/
theorem C9_amended :
    (∀ files : List (String × Except FsError Digest),
      (files.map Prod.fst).Nodup → ∀ s, (exactReadTrace files).count s ≤ 1) ∧
      (∀ (images : List (String × Option FP)) (t : ℚ),
        (images.map Prod.fst).Nodup → ∀ s, (fuzzyReadTrace images t).count s ≤ 2) ∧
      (∀ (images : List (String × Option FP)) (t : ℚ),
        (images.map Prod.fst).Nodup → 20 < images.length →
        ∀ s, (fuzzyReadTrace images t).count s ≤ 1) := by
  refine ⟨?_, ?_, ?_⟩
  · intro files hnd s
    have hnd2 : (exactReadTrace files).Nodup := hnd.sublist (exactReadTrace_sublist files)
    exact List.nodup_iff_count_le_one.mp hnd2 s
  · intro images t hnd s
    have hndv : ((validEntries images).map Prod.fst).Nodup :=
      hnd.sublist (validEntries_fst_sublist images)
    have hinv := find_duplicates_fuzzy_invariants images t hndv
    have hc1 : (images.map Prod.fst).count s ≤ 1 := List.nodup_iff_count_le_one.mp hnd s
    unfold fuzzyReadTrace
    rw [List.count_append]
    by_cases hcond : images.length ≤ 20 ∧ find_duplicates_fuzzy images t ≠ []
    · rw [if_pos hcond]
      have hflat : (((find_duplicates_fuzzy images t).filter
          (fun g => decide (g.length = 2))).flatMap (fun g => g)).count s ≤ 1 := by
        apply count_flatMap_le_one
        · intro g hg
          exact (hinv.1 g (List.mem_of_mem_filter hg)).1
        · exact hinv.2.sublist (List.filter_sublist _)
      omega
    · rw [if_neg hcond]
      simp only [List.count_nil]
      omega
  · intro images t hnd hlen s
    have hcond : ¬(images.length ≤ 20 ∧ find_duplicates_fuzzy images t ≠ []) := by
      intro hcon
      exact absurd hcon.1 (by omega)
    unfold fuzzyReadTrace
    rw [if_neg hcond, List.count_append]
    simp only [List.count_nil]
    have hc1 : (images.map Prod.fst).count s ≤ 1 := List.nodup_iff_count_le_one.mp hnd s
    omega

/-- C9 witness: the amended bounds at a concrete exact scan and a concrete
fuzzy scan. -/
theorem C9_witness :
    (exactReadTrace filesOk2).count "b" ≤ 1 ∧ (fuzzyReadTrace imgsDup 1).count "a" ≤ 2 := by
  exact ⟨C9_amended.1 filesOk2 (by decide) "b", C9_amended.2.1 imgsDup 1 (by decide) "a"⟩

/-- C10: delete_duplicates returns True exactly when at least one file was
actually removed from the filesystem; under dry-run it always returns
False, even when groups were processed and deletions were simulated. -/
theorem C10_return_flag :
    ∀ (gs : List (List String)) (ch : ℕ → Choice) (dr : Bool),
      ((delete_duplicates gs ch dr).anyDeleted = true ↔
        (delete_duplicates gs ch dr).removed ≠ []) ∧
        (dr = true → (delete_duplicates gs ch dr).anyDeleted = false) := by
  intro gs ch dr
  obtain ⟨h1, h2⟩ := delete_flag gs ch dr
  exact ⟨h1, fun hd => (h2 hd).1⟩

/-- C10 witness: a dry run over one group returns False although a deletion
was simulated; without dry-run the flag tracks the removals. -/
theorem C10_witness :
    (delete_duplicates [["a", "b"]] (fun _ => Choice.keepNum 1) true).anyDeleted = false ∧
      ((delete_duplicates [["a", "b"]] (fun _ => Choice.keepNum 1) false).anyDeleted = true ↔
        (delete_duplicates [["a", "b"]] (fun _ => Choice.keepNum 1) false).removed ≠ []) := by
  exact ⟨(C10_return_flag [["a", "b"]] (fun _ => Choice.keepNum 1) true).2 rfl,
    (C10_return_flag [["a", "b"]] (fun _ => Choice.keepNum 1) false).1⟩

end UnionFind

end PsamFinder
